import Mathlib

/-!
Shallow embedding of the label-driven-review-and-approval-check GitHub
Action (single TypeScript source file).  Untyped JavaScript values are
modelled by `JValue`, JavaScript objects by insertion-ordered association
lists, and every operation of the source is translated into an executable
Lean function.  Remote calls (team membership listing, review-request
mutation) are modelled by explicit oracles and explicit action values, so
that the side-effecting control flow of `run` becomes a pure function of
its inputs.
-/

namespace LabelCheck

/-- Whitespace predicate used by the JavaScript `String.prototype.trim`
(the characters relevant to this development: space, tab, LF, CR, FF, VT,
NBSP). -/
def jsWhitespace (c : Char) : Bool :=
  c = ' ' || c = '\t' || c = '\n' || c = '\r' || c = '\x0c' || c = '\x0b' || c = ' '

/-- Trim `jsWhitespace` characters from both ends of a character list. -/
def trimChars (cs : List Char) : List Char :=
  ((cs.dropWhile jsWhitespace).reverse.dropWhile jsWhitespace).reverse

/-- Model of the JavaScript `String.prototype.trim` (`k.trim()`,
`v.trim()` in `validateConfig`). -/
def jsTrim (s : String) : String :=
  String.mk (trimChars s.data)

/-- Untyped JavaScript values as delivered by the YAML parser.  A missing
object field (`undefined`) is modelled by `Option.none` at lookup sites. -/
inductive JValue where
  | null : JValue
  | bool (b : Bool) : JValue
  | num (q : ℚ) : JValue
  | str (s : String) : JValue
  | obj (fields : List (String × JValue)) : JValue

/-- JavaScript truthiness (`Boolean(x)`) for the modelled values.  -/
def jsTruthy : JValue → Bool
  | .null => false
  | .bool b => b
  | .num q => q ≠ 0
  | .str s => s ≠ ""
  | .obj _ => true

/-- Field lookup on an object field list (`obj.x`): first entry wins. -/
def jLookup (fields : List (String × JValue)) (k : String) : Option JValue :=
  (fields.find? (fun p => p.1 = k)).map (fun p => p.2)

/-- Lookup in an insertion-ordered map (`m[k]`, `Map.get`). -/
def objLookup {α : Type} (m : List (String × α)) (k : String) : Option α :=
  (m.find? (fun p => p.1 = k)).map (fun p => p.2)

/-- Key-membership test (`Object.prototype.hasOwnProperty.call(m, k)`,
`k in m`, `Map.has`). -/
def hasKey {α : Type} (m : List (String × α)) (k : String) : Bool :=
  m.any (fun p => p.1 = k)

/-- Assignment `m[k] = v` on a JavaScript object or `Map.set`: an existing
key keeps its position and receives the new value, a new key is appended. -/
def objInsert {α : Type} (m : List (String × α)) (k : String) (v : α) : List (String × α) :=
  if hasKey m k then m.map (fun p => if p.1 = k then (k, v) else p)
  else m ++ [(k, v)]

/-- Validated configuration (`LabelConfig` after `validateConfig`).  Maps
are insertion-ordered association lists, mirroring JavaScript object
iteration order. -/
structure LabelConfig where
  labels : List (String × String)
  requiredApprovals : ℕ
  overrides : List (String × ℕ)
  ignoreDraft : Bool
  retractOnUnlabeled : Bool
deriving DecidableEq, Repr

/-- The `labels` loop of `validateConfig`: each value must be a string
with non-empty trim; keys and values are stored trimmed. -/
def validateLabels : List (String × JValue) → List (String × String) →
    Except String (List (String × String))
  | [], acc => .ok acc
  | (k, v) :: rest, acc =>
    match v with
    | .str s =>
      if jsTrim s = "" then
        .error ("Domain " ++ k ++ " must map to a non-empty team slug string.")
      else
        validateLabels rest (objInsert acc (jsTrim k) (jsTrim s))
    | _ => .error ("Domain " ++ k ++ " must map to a non-empty team slug string.")

/-- The top-level `requiredApprovals` handling of `validateConfig`:
`typeof v === "number" && v >= 1 ? Math.floor(v) : 1`. -/
def parseRequiredApprovals (v : Option JValue) : ℕ :=
  match v with
  | some (.num q) => if 1 ≤ q then (Rat.floor q).toNat else 1
  | _ => 1

/-- The `overrides` loop of `validateConfig`: non-object entries are
skipped; an object entry with a defined `requiredApprovals` must carry a
number at least 1 (floored), else validation fails; keys are stored
untrimmed. -/
def validateOverrides : List (String × JValue) → List (String × ℕ) →
    Except String (List (String × ℕ))
  | [], acc => .ok acc
  | (k, spec) :: rest, acc =>
    match spec with
    | .obj specFields =>
      match jLookup specFields "requiredApprovals" with
      | some (.num r) =>
        if r < 1 then
          .error ("Override for domain " ++ k ++ " has invalid requiredApprovals")
        else
          validateOverrides rest (objInsert acc k (Rat.floor r).toNat)
      | some _ => .error ("Override for domain " ++ k ++ " has invalid requiredApprovals")
      | none => validateOverrides rest acc
    | _ => validateOverrides rest acc

/-- `validateConfig` of the source: root must be an object, `labels` a
non-null object of non-empty team slugs; `requiredApprovals` defaults to 1
(see `parseRequiredApprovals`); `ignoreDraft` and `retractOnUnlabeled`
default to true, any present value is coerced by `Boolean(...)`. -/
def validateConfig (raw : JValue) : Except String LabelConfig :=
  match raw with
  | .obj fields =>
    match jLookup fields "labels" with
    | some (.obj labelFields) =>
      match validateLabels labelFields [] with
      | .error e => .error e
      | .ok labels =>
        match (match jLookup fields "overrides" with
               | some (.obj oFields) => validateOverrides oFields []
               | _ => .ok []) with
        | .error e => .error e
        | .ok overrides =>
          .ok { labels := labels,
                requiredApprovals := parseRequiredApprovals (jLookup fields "requiredApprovals"),
                overrides := overrides,
                ignoreDraft := ((jLookup fields "ignoreDraft").map jsTruthy).getD true,
                retractOnUnlabeled := ((jLookup fields "retractOnUnlabeled").map jsTruthy).getD true }
    | _ => .error "Config must contain a labels object mapping label names to team slugs."
  | _ => .error "Config root must be an object."

/-- One element of the review listing (`octokit.paginate(listReviews)`):
the user login may be missing, the timestamp is the already-parsed epoch
value of `submitted_at` (absent when the field is absent or empty). -/
structure Review where
  userLogin : Option String
  state : String
  submittedAt : Option ℕ
deriving DecidableEq, Repr

/-- The per-user record stored in the `byUser` map of
`getApprovalsByUser`. -/
structure UserReviewState where
  state : String
  submittedAt : Option ℕ
deriving DecidableEq, Repr

/-- One iteration of the `getApprovalsByUser` loop: skip a review with a
falsy login; store the first record for a user; replace a stored record
iff the new timestamp (absent read as epoch 0) is at least the stored
one. -/
def applyReview (byUser : List (String × UserReviewState)) (r : Review) :
    List (String × UserReviewState) :=
  match r.userLogin with
  | none => byUser
  | some login =>
    if login = "" then byUser
    else
      match objLookup byUser login with
      | none => objInsert byUser login ⟨r.state, r.submittedAt⟩
      | some current =>
        if current.submittedAt.getD 0 ≤ r.submittedAt.getD 0 then
          objInsert byUser login ⟨r.state, r.submittedAt⟩
        else byUser

/-- The full reduction loop of `getApprovalsByUser`: a left fold of
`applyReview` over the reviews in delivery order. -/
def reduceReviews (reviews : List Review) : List (String × UserReviewState) :=
  reviews.foldl applyReview []

/-- The approved-user set of `getApprovalsByUser`: the users whose final
reduced state is APPROVED, in map insertion order. -/
def approvedUsersOf (reviews : List Review) : List String :=
  ((reduceReviews reviews).filter (fun p => p.2.state = "APPROVED")).map (fun p => p.1)

/-- Run-scoped team membership cache (`TeamMembersCache`). -/
abbrev TeamCache : Type := List (String × List String)

/-- A membership-listing oracle: `none` models any failure of
`octokit.paginate(listMembersInOrg)`, `some ms` a successful response
whose entries may carry missing logins. -/
abbrev TeamOracle : Type := String → Option (List (Option String))

/-- The member set extracted from a successful listing: logins that are
present and non-empty (`filter(l is string && l.length > 0)`). -/
def membersOfResponse (ms : List (Option String)) : List String :=
  ms.filterMap (fun l => match l with
    | some s => if s.length > 0 then some s else none
    | none => none)

/-- Result of one `fetchTeamMembers` call, with the observable effects
made explicit: the returned member set, the updated cache, whether the
remote listing was attempted (cache miss), and whether a warning was
recorded (listing failure). -/
structure FetchResult where
  members : List String
  cache : TeamCache
  attempted : Bool
  warned : Bool

/-- `fetchTeamMembers`: return the cached set when present; otherwise
attempt the listing, cache and return its member set on success, and on
any failure record a warning and cache the empty set. -/
def fetchTeamMembers (resolve : TeamOracle) (teamSlug : String) (cache : TeamCache) :
    FetchResult :=
  match objLookup cache teamSlug with
  | some s => ⟨s, cache, false, false⟩
  | none =>
    match resolve teamSlug with
    | some ms =>
      let s := membersOfResponse ms
      ⟨s, objInsert cache teamSlug s, true, false⟩
    | none => ⟨[], objInsert cache teamSlug [], true, true⟩

/-- Result of `extractDomainLabels`. -/
structure DomainExtractionResult where
  domains : List String
  domainLabelMap : List (String × String)
deriving DecidableEq, Repr

/-- `extractDomainLabels`: walk the PR labels in order, skip entries with
a missing or empty name, and record each name that is a configured key
(first occurrence wins, mapped to itself). -/
def extractDomainLabels (config : LabelConfig) (prLabels : List (Option String)) :
    DomainExtractionResult :=
  let m := prLabels.foldl (fun m l =>
    match l with
    | none => m
    | some name =>
      if name.length = 0 then m
      else if hasKey config.labels name then objInsert m name name
      else m) []
  ⟨m.map (fun p => p.1), m⟩

/-- The `toRequest` computation of `ensureTeamReviewRequests`: mapped team
slugs of the present domains that are truthy and not already requested. -/
def computeTeamsToRequest (config : LabelConfig) (presentDomains : List String)
    (existingRequestedTeamSlugs : List String) : List String :=
  presentDomains.foldl (fun acc d =>
    match objLookup config.labels d with
    | none => acc
    | some teamSlug =>
      if teamSlug = "" then acc
      else if existingRequestedTeamSlugs.contains teamSlug then acc
      else acc ++ [teamSlug]) []

/-- The observable outcome of `ensureTeamReviewRequests`. -/
inductive EnsureAction where
  | nothing : EnsureAction
  | dryRunTrace (teams : List String) : EnsureAction
  | request (teams : List String) : EnsureAction
deriving DecidableEq, Repr

/-- `ensureTeamReviewRequests`: nothing to do when `toRequest` is empty;
under dry-run only an informational trace; otherwise one request carrying
the whole list. -/
def ensureTeamReviewRequests (config : LabelConfig) (presentDomains : List String)
    (existingRequestedTeamSlugs : List String) (dryRun : Bool) : EnsureAction :=
  let toRequest := computeTeamsToRequest config presentDomains existingRequestedTeamSlugs
  if toRequest.isEmpty then .nothing
  else if dryRun then .dryRunTrace toRequest
  else .request toRequest

/-- The parts of the event payload read by `maybeRetractOnUnlabeled`. -/
structure EventContext where
  eventName : String
  action : Option String
  removedLabel : Option String
deriving DecidableEq, Repr

/-- The observable outcome of `maybeRetractOnUnlabeled`. -/
inductive RetractAction where
  | nothing : RetractAction
  | dryRunTrace (team : String) : RetractAction
  | remove (team : String) : RetractAction
deriving DecidableEq, Repr

/-- `maybeRetractOnUnlabeled`: acts only when `retractOnUnlabeled` is set,
the event is a pull-request event with action `unlabeled`, the removed
label name is present, non-empty and a configured key, and its mapped
slug is truthy; under dry-run only a trace is emitted. -/
def maybeRetractOnUnlabeled (config : LabelConfig) (ctx : EventContext) (dryRun : Bool) :
    RetractAction :=
  if ¬ config.retractOnUnlabeled then .nothing
  else if ctx.eventName ≠ "pull_request" ∧ ctx.eventName ≠ "pull_request_target" then .nothing
  else if ctx.action ≠ some "unlabeled" then .nothing
  else
    match ctx.removedLabel with
    | none => .nothing
    | some removedLabelName =>
      if removedLabelName = "" then .nothing
      else if ¬ hasKey config.labels removedLabelName then .nothing
      else
        match objLookup config.labels removedLabelName with
        | none => .nothing
        | some teamSlug =>
          if teamSlug = "" then .nothing
          else if dryRun then .dryRunTrace teamSlug
          else .remove teamSlug

/-- One evaluation record (`EvaluatedDomain`). -/
structure EvaluatedDomain where
  domainKey : String
  teamSlug : String
  labelName : String
  approvals : ℕ
  required : ℕ
  satisfied : Bool
  approvers : List String
deriving DecidableEq, Repr

/-- One iteration of the evaluation loop of `run`: a domain with a
missing or empty slug, or absent from the extraction map, is skipped with
a warning; otherwise the record is computed from the (memoized) member
set, and the slug is recorded when the listing was actually attempted. -/
def evalStep (config : LabelConfig) (extraction : DomainExtractionResult)
    (approvedUsers : List String) (resolve : TeamOracle)
    (acc : List EvaluatedDomain × TeamCache × List String) (domainKey : String) :
    List EvaluatedDomain × TeamCache × List String :=
  let (evals, cache, attempts) := acc
  match objLookup config.labels domainKey with
  | none => acc
  | some teamSlug =>
    if teamSlug = "" then acc
    else
      match objLookup extraction.domainLabelMap domainKey with
      | none => acc
      | some resolvedLabelName =>
        if resolvedLabelName = "" then acc
        else
          let required := (objLookup config.overrides domainKey).getD config.requiredApprovals
          let fr := fetchTeamMembers resolve teamSlug cache
          let approvers := approvedUsers.filter (fun u => fr.members.contains u)
          (evals ++ [{ domainKey := domainKey, teamSlug := teamSlug,
                       labelName := resolvedLabelName,
                       approvals := approvers.length, required := required,
                       satisfied := decide (required ≤ approvers.length),
                       approvers := approvers }],
           fr.cache,
           if fr.attempted then attempts ++ [teamSlug] else attempts)

/-- The evaluation loop of `run` over the matched domains, threading the
run-scoped team cache and recording which slugs were resolved remotely. -/
def evaluateDomainsAux (config : LabelConfig) (extraction : DomainExtractionResult)
    (approvedUsers : List String) (resolve : TeamOracle) :
    List EvaluatedDomain × TeamCache × List String :=
  extraction.domains.foldl (evalStep config extraction approvedUsers resolve) ([], [], [])

/-- The evaluation records computed by `run`. -/
def evaluateDomains (config : LabelConfig) (extraction : DomainExtractionResult)
    (approvedUsers : List String) (resolve : TeamOracle) : List EvaluatedDomain :=
  (evaluateDomainsAux config extraction approvedUsers resolve).1

/-- The PR fields read by the modelled portion of `run`. -/
structure PullRequest where
  draft : Bool
  labels : List (Option String)
deriving DecidableEq, Repr

/-- The observable result of one run (from the retract call onward):
status output, the two optional list outputs, the evaluation records, and
the two reconciliation actions. -/
structure RunResult where
  status : String
  requiredLabels : Option String
  missingApprovals : Option String
  evaluations : List EvaluatedDomain
  retractAction : RetractAction
  ensureAction : EnsureAction
deriving DecidableEq, Repr

/-- The `run` pipeline after config load, as a pure function: retract
first, then the draft gate, then extraction, the ensure side effect, the
vacuous pass, and finally the evaluation loop and outputs. -/
def runEval (config : LabelConfig) (ctx : EventContext) (pr : PullRequest)
    (existingRequestedTeamSlugs : List String) (reviews : List Review)
    (resolve : TeamOracle) (dryRun : Bool) : RunResult :=
  let retract := maybeRetractOnUnlabeled config ctx dryRun
  if config.ignoreDraft && pr.draft then
    { status := "skipped", requiredLabels := none, missingApprovals := none,
      evaluations := [], retractAction := retract, ensureAction := .nothing }
  else
    let extraction := extractDomainLabels config pr.labels
    let ensure := ensureTeamReviewRequests config extraction.domains
      existingRequestedTeamSlugs dryRun
    if extraction.domains.isEmpty then
      { status := "success", requiredLabels := some "", missingApprovals := some "",
        evaluations := [], retractAction := retract, ensureAction := ensure }
    else
      let approvedUsers := approvedUsersOf reviews
      let evaluations := evaluateDomains config extraction approvedUsers resolve
      let missing := (evaluations.filter (fun e => ¬ e.satisfied)).map (fun e => e.domainKey)
      let anyFailure := ¬ missing.isEmpty
      { status := if anyFailure then "failure" else "success",
        requiredLabels := some (String.intercalate "," (evaluations.map (fun e => e.domainKey))),
        missingApprovals := some (String.intercalate "," missing),
        evaluations := evaluations, retractAction := retract, ensureAction := ensure }

/-- Canonical member set a slug resolves to: the filtered response on
success, the empty set on failure. -/
def resolvedMembers (resolve : TeamOracle) (slug : String) : List String :=
  match resolve slug with
  | some ms => membersOfResponse ms
  | none => []

/-- The evaluation record the source computes for a matched domain key
(for a well-formed configuration). -/
def expectedRecord (config : LabelConfig) (approved : List String) (resolve : TeamOracle)
    (d : String) : EvaluatedDomain :=
  let teamSlug := (objLookup config.labels d).getD ""
  let approvers := approved.filter (fun u => (resolvedMembers resolve teamSlug).contains u)
  { domainKey := d, teamSlug := teamSlug, labelName := d,
    approvals := approvers.length,
    required := (objLookup config.overrides d).getD config.requiredApprovals,
    satisfied := decide ((objLookup config.overrides d).getD config.requiredApprovals ≤ approvers.length),
    approvers := approvers }

/-- One PR label processed against the seen key list (string-level view of
the `extractDomainLabels` loop body). -/
def matchStep (config : LabelConfig) (seen : List String) (l : Option String) : List String :=
  match l with
  | none => seen
  | some name =>
    if name.length = 0 then seen
    else if hasKey config.labels name then
      if name ∈ seen then seen else seen ++ [name]
    else seen

/-- The PR label names that are non-empty and configured keys, in
sequence order and with repetitions. -/
def validNames (config : LabelConfig) (prLabels : List (Option String)) : List String :=
  (prLabels.filterMap (fun l => l)).filter (fun n => !(n == "") && hasKey config.labels n)

/-- Keep the first occurrence of every string not yet seen. -/
def firstOccur (seen : List String) : List String → List String
  | [] => []
  | x :: xs => if x ∈ seen then firstOccur seen xs else x :: firstOccur (seen ++ [x]) xs

/-- The label matcher as the specification words it: the ordered-by-first-
seen set of configured domain keys exactly matching a PR label name. -/
def matcherSpec (config : LabelConfig) (prLabels : List (Option String)) : List String :=
  firstOccur [] (validNames config prLabels)

/-- The identity pair a matched label contributes to the extraction map. -/
def dupPair (x : String) : String × String := (x, x)

/-- A small concrete policy used to instantiate the theorems below at
closed inputs (mirrors the README example). -/
def sampleConfig : LabelConfig :=
  { labels := [("frontend", "web"), ("billing", "fin")], requiredApprovals := 1,
    overrides := [("billing", 2)], ignoreDraft := true, retractOnUnlabeled := true }

/-- A concrete membership oracle for the sample policy: the `web` listing
succeeds with one member, every other listing fails. -/
def sampleOracle : TeamOracle :=
  fun slug => if slug = "web" then some [some "alice"] else none

/-- A concrete unlabeled-event context for the sample policy. -/
def sampleCtx : EventContext :=
  { eventName := "pull_request", action := some "unlabeled", removedLabel := some "billing" }

/-- A concrete non-draft PR carrying one configured and one unconfigured
label. -/
def samplePR : PullRequest :=
  { draft := false, labels := [some "frontend", some "docs"] }

/-- A concrete draft PR. -/
def sampleDraftPR : PullRequest :=
  { draft := true, labels := [some "frontend"] }

/-- A concrete review listing. -/
def sampleReviews : List Review :=
  [{ userLogin := some "alice", state := "APPROVED", submittedAt := some 10 },
   { userLogin := some "bob", state := "CHANGES_REQUESTED", submittedAt := some 5 }]

section AssocLemmas

variable {α : Type}

theorem objLookup_nil (k : String) : objLookup ([] : List (String × α)) k = none := rfl

theorem objLookup_cons (p : String × α) (m : List (String × α)) (k : String) :
    objLookup (p :: m) k = if p.1 = k then some p.2 else objLookup m k := by
  by_cases h : p.1 = k <;> simp [objLookup, List.find?, h]

theorem hasKey_nil (k : String) : hasKey ([] : List (String × α)) k = false := rfl

theorem hasKey_cons (p : String × α) (m : List (String × α)) (k : String) :
    hasKey (p :: m) k = (decide (p.1 = k) || hasKey m k) := by
  simp [hasKey]

theorem hasKey_iff (m : List (String × α)) (k : String) :
    hasKey m k = true ↔ ∃ v, (k, v) ∈ m := by
  induction m with
  | nil => simp [hasKey]
  | cons p m ih =>
    rw [hasKey_cons]
    constructor
    · intro h
      rcases Bool.or_eq_true_iff.mp h with h1 | h2
      · have hk := of_decide_eq_true h1
        exact ⟨p.2, by rw [← hk]; exact Prod.mk.eta ▸ List.mem_cons_self p m⟩
      · rcases ih.mp h2 with ⟨v, hv⟩
        exact ⟨v, List.mem_cons_of_mem _ hv⟩
    · rintro ⟨v, hv⟩
      rcases List.mem_cons.mp hv with h1 | h2
      · simp [← h1]
      · simp [ih.mpr ⟨v, h2⟩]

theorem objLookup_map_replace_ne (m : List (String × α)) (k k' : String) (v : α)
    (h : k' ≠ k) :
    objLookup (m.map (fun p => if p.1 = k then (k, v) else p)) k' = objLookup m k' := by
  induction m with
  | nil => rfl
  | cons p m ih =>
    by_cases hp : p.1 = k
    · simp only [List.map_cons, if_pos hp]
      rw [objLookup_cons, objLookup_cons, ih]
      have h1 : ¬ (k = k') := fun hh => h hh.symm
      simp [h1, hp ▸ h1]
    · simp only [List.map_cons, if_neg hp]
      rw [objLookup_cons, objLookup_cons, ih]

theorem objLookup_map_replace_self (m : List (String × α)) (k : String) (v : α)
    (h : hasKey m k = true) :
    objLookup (m.map (fun p => if p.1 = k then (k, v) else p)) k = some v := by
  induction m with
  | nil => simp [hasKey] at h
  | cons p m ih =>
    by_cases hp : p.1 = k
    · simp only [List.map_cons, if_pos hp]
      rw [objLookup_cons]
      simp
    · simp only [List.map_cons, if_neg hp]
      rw [objLookup_cons, if_neg hp]
      rw [hasKey_cons] at h
      rcases Bool.or_eq_true_iff.mp h with h1 | h2
      · exact absurd (of_decide_eq_true h1) hp
      · exact ih h2

theorem objLookup_append (m₁ m₂ : List (String × α)) (k : String) :
    objLookup (m₁ ++ m₂) k = ((objLookup m₁ k).orElse (fun _ => objLookup m₂ k)) := by
  induction m₁ with
  | nil => simp [objLookup_nil, Option.orElse]
  | cons p m ih =>
    rw [List.cons_append, objLookup_cons, objLookup_cons]
    by_cases hp : p.1 = k <;> simp [hp, ih, Option.orElse]

theorem objLookup_eq_some_mem (m : List (String × α)) (k : String) (v : α)
    (h : objLookup m k = some v) : (k, v) ∈ m := by
  induction m with
  | nil => simp [objLookup_nil] at h
  | cons p m ih =>
    rw [objLookup_cons] at h
    by_cases hp : p.1 = k
    · rw [if_pos hp] at h
      injection h with h
      rw [← h, ← hp]
      exact Prod.mk.eta ▸ List.mem_cons_self p m
    · rw [if_neg hp] at h
      exact List.mem_cons_of_mem _ (ih h)

theorem objLookup_objInsert (m : List (String × α)) (k k' : String) (v : α) :
    objLookup (objInsert m k v) k' = if k' = k then some v else objLookup m k' := by
  unfold objInsert
  by_cases hk : hasKey m k = true
  · rw [if_pos hk]
    by_cases h : k' = k
    · subst h; rw [if_pos rfl, objLookup_map_replace_self m k' v hk]
    · rw [if_neg h, objLookup_map_replace_ne m k k' v h]
  · rw [if_neg hk, objLookup_append]
    by_cases h : k' = k
    · subst h
      have hnone : objLookup m k' = none := by
        cases ho : objLookup m k' with
        | none => rfl
        | some w =>
          exact absurd ((hasKey_iff m k').mpr ⟨w, objLookup_eq_some_mem m k' w ho⟩) hk
      simp [hnone, objLookup_cons, Option.orElse]
    · have h2 : ¬ (k = k') := fun hh => h hh.symm
      simp only [if_neg h, objLookup_cons, objLookup_nil, if_neg h2]
      cases objLookup m k' <;> simp [Option.orElse]

theorem keys_objInsert (m : List (String × α)) (k : String) (v : α) :
    (objInsert m k v).map Prod.fst =
      if hasKey m k then m.map Prod.fst else m.map Prod.fst ++ [k] := by
  unfold objInsert
  by_cases hk : hasKey m k = true
  · rw [if_pos hk, if_pos hk, List.map_map]
    apply List.map_congr_left
    intro p _
    by_cases hp : p.1 = k <;> simp [hp]
  · simp [hk]

theorem nodupKeys_objInsert (m : List (String × α)) (k : String) (v : α)
    (h : (m.map Prod.fst).Nodup) : ((objInsert m k v).map Prod.fst).Nodup := by
  rw [keys_objInsert]
  by_cases hk : hasKey m k = true
  · rwa [if_pos hk]
  · rw [if_neg hk]
    rw [List.nodup_append]
    refine ⟨h, List.nodup_singleton k, ?_⟩
    intro a ha hb
    rcases List.mem_singleton.mp hb with rfl
    rcases List.mem_map.mp ha with ⟨p, hp, hfst⟩
    exact hk ((hasKey_iff m a).mpr ⟨p.2, by rw [← hfst]; exact hp⟩)

theorem mem_objInsert (m : List (String × α)) (k : String) (v : α) (p : String × α)
    (h : p ∈ objInsert m k v) : p ∈ m ∨ p = (k, v) := by
  unfold objInsert at h
  by_cases hk : hasKey m k = true
  · rw [if_pos hk] at h
    rcases List.mem_map.mp h with ⟨q, hq, hfq⟩
    by_cases hqk : q.1 = k
    · right; rw [← hfq]; simp [hqk]
    · left; rw [← hfq]; simp [hqk]; exact hq
  · rw [if_neg hk] at h
    rcases List.mem_append.mp h with h1 | h2
    · left; exact h1
    · right; exact List.mem_singleton.mp h2

theorem mem_map_filter_iff_objLookup (m : List (String × α)) (P : String × α → Bool)
    (u : String) (hnd : (m.map Prod.fst).Nodup) :
    u ∈ (m.filter P).map Prod.fst ↔ ∃ v, objLookup m u = some v ∧ P (u, v) = true := by
  induction m with
  | nil => simp [objLookup_nil]
  | cons p m ih =>
    rw [List.map_cons] at hnd
    have hnd' : (m.map Prod.fst).Nodup := (List.nodup_cons.mp hnd).2
    have hp1 : p.1 ∉ m.map Prod.fst := (List.nodup_cons.mp hnd).1
    rw [objLookup_cons]
    by_cases hpu : p.1 = u
    · subst hpu
      rw [if_pos rfl]
      constructor
      · intro h
        by_cases hP : P p = true
        · exact ⟨p.2, rfl, by rw [show ((p.1 : String), p.2) = p from rfl]; exact hP⟩
        · exfalso
          rw [List.filter_cons, if_neg hP] at h
          rcases List.mem_map.mp h with ⟨q, hq, hfq⟩
          exact hp1 (List.mem_map.mpr ⟨q, List.mem_of_mem_filter hq, hfq⟩)
      · rintro ⟨v, hv, hP⟩
        cases hv
        rw [List.filter_cons, if_pos (by rw [show ((p.1 : String), p.2) = p from rfl] at hP; exact hP)]
        exact List.mem_cons_self _ _
    · rw [if_neg hpu]
      rw [List.filter_cons]
      by_cases hP : P p = true
      · rw [if_pos hP, List.map_cons]
        rw [List.mem_cons]
        constructor
        · intro h
          rcases h with h | h
          · exact absurd h.symm hpu
          · exact (ih hnd').mp h
        · intro h
          right
          exact (ih hnd').mpr h
      · rw [if_neg hP]
        exact ih hnd'

end AssocLemmas

section ExtractLemmas

theorem string_length_zero_iff (s : String) : s.length = 0 ↔ s = "" := by
  constructor
  · intro h
    cases s with
    | mk data =>
      cases data with
      | nil => rfl
      | cons c cs => simp [String.length] at h
  · intro h; subst h; rfl

theorem hasKey_map_dup (seen : List String) (name : String) :
    hasKey (seen.map dupPair) name = true ↔ name ∈ seen := by
  rw [hasKey_iff]
  constructor
  · rintro ⟨v, hv⟩
    rcases List.mem_map.mp hv with ⟨x, hx, hdx⟩
    simp only [dupPair, Prod.mk.injEq] at hdx
    rw [← hdx.1]
    exact hx
  · intro h
    exact ⟨name, List.mem_map.mpr ⟨name, h, rfl⟩⟩

theorem objInsert_map_dup_mem (seen : List String) (name : String) (h : name ∈ seen) :
    objInsert (seen.map dupPair) name name = seen.map dupPair := by
  unfold objInsert
  rw [if_pos ((hasKey_map_dup seen name).mpr h), List.map_map]
  apply List.map_congr_left
  intro x _
  by_cases hx : x = name
  · subst hx; simp [dupPair]
  · simp [dupPair, hx]

theorem objInsert_map_dup_not_mem (seen : List String) (name : String) (h : name ∉ seen) :
    objInsert (seen.map dupPair) name name = (seen ++ [name]).map dupPair := by
  unfold objInsert
  rw [if_neg (fun hk => h ((hasKey_map_dup seen name).mp hk))]
  simp [dupPair]

theorem extract_foldl_eq (config : LabelConfig) (ls : List (Option String))
    (seen : List String) :
    ls.foldl (fun m l =>
      match l with
      | none => m
      | some name =>
        if name.length = 0 then m
        else if hasKey config.labels name then objInsert m name name
        else m) (seen.map dupPair)
    = (ls.foldl (matchStep config) seen).map dupPair := by
  induction ls generalizing seen with
  | nil => rfl
  | cons l ls ih =>
    rw [List.foldl_cons, List.foldl_cons]
    cases l with
    | none => exact ih seen
    | some name =>
      simp only [matchStep]
      by_cases h0 : name.length = 0
      · rw [if_pos h0, if_pos h0]; exact ih seen
      · rw [if_neg h0, if_neg h0]
        by_cases hk : hasKey config.labels name = true
        · rw [if_pos hk, if_pos hk]
          by_cases hc : name ∈ seen
          · rw [if_pos hc, objInsert_map_dup_mem seen name hc]
            exact ih seen
          · rw [if_neg hc, objInsert_map_dup_not_mem seen name hc]
            exact ih (seen ++ [name])
        · rw [if_neg hk, if_neg hk]; exact ih seen

theorem extractDomainLabels_eq (config : LabelConfig) (prLabels : List (Option String)) :
    extractDomainLabels config prLabels =
      ⟨prLabels.foldl (matchStep config) [],
       (prLabels.foldl (matchStep config) []).map dupPair⟩ := by
  unfold extractDomainLabels
  have h := extract_foldl_eq config prLabels []
  simp only [List.map_nil] at h
  rw [h]
  dsimp only
  congr 1
  rw [List.map_map]
  have hcomp : ((fun (p : String × String) => p.1) ∘ dupPair) = id := funext (fun _ => rfl)
  rw [hcomp, List.map_id]

theorem mem_foldl_matchStep (config : LabelConfig) (ls : List (Option String)) :
    ∀ (seen : List String) (x : String),
      x ∈ ls.foldl (matchStep config) seen ↔
        x ∈ seen ∨ (x ≠ "" ∧ some x ∈ ls ∧ hasKey config.labels x = true) := by
  induction ls with
  | nil => intro seen x; simp
  | cons l ls ih =>
    intro seen x
    rw [List.foldl_cons]
    rw [ih (matchStep config seen l) x]
    cases l with
    | none =>
      simp only [matchStep]
      constructor
      · rintro (h | h)
        · exact Or.inl h
        · exact Or.inr ⟨h.1, List.mem_cons_of_mem _ h.2.1, h.2.2⟩
      · rintro (h | ⟨h1, h2, h3⟩)
        · exact Or.inl h
        · rcases List.mem_cons.mp h2 with h | h
          · exact absurd h (by simp)
          · exact Or.inr ⟨h1, h, h3⟩
    | some name =>
      simp only [matchStep]
      by_cases h0 : name.length = 0
      · rw [if_pos h0]
        have hname : name = "" := (string_length_zero_iff name).mp h0
        subst hname
        constructor
        · rintro (h | h)
          · exact Or.inl h
          · exact Or.inr ⟨h.1, List.mem_cons_of_mem _ h.2.1, h.2.2⟩
        · rintro (h | ⟨h1, h2, h3⟩)
          · exact Or.inl h
          · rcases List.mem_cons.mp h2 with h | h
            · injection h with h; exact absurd h h1
            · exact Or.inr ⟨h1, h, h3⟩
      · rw [if_neg h0]
        have hne : name ≠ "" := fun hh => h0 ((string_length_zero_iff name).mpr hh)
        by_cases hk : hasKey config.labels name = true
        · rw [if_pos hk]
          by_cases hc : name ∈ seen
          · rw [if_pos hc]
            constructor
            · rintro (h | h)
              · exact Or.inl h
              · exact Or.inr ⟨h.1, List.mem_cons_of_mem _ h.2.1, h.2.2⟩
            · rintro (h | ⟨h1, h2, h3⟩)
              · exact Or.inl h
              · rcases List.mem_cons.mp h2 with h | h
                · injection h with h; subst h; exact Or.inl hc
                · exact Or.inr ⟨h1, h, h3⟩
          · rw [if_neg hc]
            constructor
            · rintro (h | h)
              · rcases List.mem_append.mp h with h | h
                · exact Or.inl h
                · rcases List.mem_singleton.mp h with rfl
                  exact Or.inr ⟨hne, List.mem_cons_self _ _, hk⟩
              · exact Or.inr ⟨h.1, List.mem_cons_of_mem _ h.2.1, h.2.2⟩
            · rintro (h | ⟨h1, h2, h3⟩)
              · exact Or.inl (List.mem_append.mpr (Or.inl h))
              · rcases List.mem_cons.mp h2 with h | h
                · injection h with h
                  subst h
                  exact Or.inl (List.mem_append.mpr (Or.inr (List.mem_singleton.mpr rfl)))
                · exact Or.inr ⟨h1, h, h3⟩
        · rw [if_neg hk]
          constructor
          · rintro (h | h)
            · exact Or.inl h
            · exact Or.inr ⟨h.1, List.mem_cons_of_mem _ h.2.1, h.2.2⟩
          · rintro (h | ⟨h1, h2, h3⟩)
            · exact Or.inl h
            · rcases List.mem_cons.mp h2 with h | h
              · injection h with h; subst h; exact absurd h3 hk
              · exact Or.inr ⟨h1, h, h3⟩

theorem nodup_foldl_matchStep (config : LabelConfig) (ls : List (Option String)) :
    ∀ seen : List String, seen.Nodup → (ls.foldl (matchStep config) seen).Nodup := by
  induction ls with
  | nil => intro seen h; exact h
  | cons l ls ih =>
    intro seen h
    rw [List.foldl_cons]
    apply ih
    cases l with
    | none => exact h
    | some name =>
      simp only [matchStep]
      by_cases h0 : name.length = 0
      · rw [if_pos h0]; exact h
      · rw [if_neg h0]
        by_cases hk : hasKey config.labels name = true
        · rw [if_pos hk]
          by_cases hc : name ∈ seen
          · rw [if_pos hc]; exact h
          · rw [if_neg hc]
            rw [List.nodup_append]
            refine ⟨h, List.nodup_singleton name, fun a ha hb => ?_⟩
            rcases List.mem_singleton.mp hb with rfl
            exact hc ha
        · rw [if_neg hk]; exact h

theorem validNames_cons_none (config : LabelConfig) (ls : List (Option String)) :
    validNames config (none :: ls) = validNames config ls := by
  simp [validNames]

theorem validNames_cons_some (config : LabelConfig) (name : String)
    (ls : List (Option String)) :
    validNames config (some name :: ls) =
      if !(name == "") && hasKey config.labels name then name :: validNames config ls
      else validNames config ls := by
  simp only [validNames, List.filterMap_cons, id]
  rw [List.filter_cons]

theorem foldl_matchStep_eq_firstOccur (config : LabelConfig) (ls : List (Option String)) :
    ∀ seen : List String,
      ls.foldl (matchStep config) seen = seen ++ firstOccur seen (validNames config ls) := by
  induction ls with
  | nil => intro seen; simp [validNames, firstOccur]
  | cons l ls ih =>
    intro seen
    rw [List.foldl_cons]
    cases l with
    | none =>
      rw [validNames_cons_none]
      exact ih seen
    | some name =>
      rw [validNames_cons_some]
      simp only [matchStep]
      by_cases h0 : name.length = 0
      · have hname : name = "" := (string_length_zero_iff name).mp h0
        subst hname
        rw [if_pos (show ("" : String).length = 0 from rfl)]
        simp only [beq_self_eq_true, Bool.not_true, Bool.false_and, if_neg Bool.false_ne_true]
        exact ih seen
      · have hne : name ≠ "" := fun hh => h0 ((string_length_zero_iff name).mpr hh)
        rw [if_neg h0]
        by_cases hk : hasKey config.labels name = true
        · rw [if_pos hk]
          have hcond : (!(name == "") && hasKey config.labels name) = true := by
            simp [hne, hk]
          rw [if_pos hcond]
          by_cases hc : name ∈ seen
          · rw [if_pos hc]
            rw [ih seen]
            simp only [firstOccur, if_pos hc]
          · rw [if_neg hc]
            rw [ih (seen ++ [name])]
            simp only [firstOccur, if_neg hc]
            rw [List.append_assoc]
            rfl
        · rw [if_neg hk]
          have hcond : (!(name == "") && hasKey config.labels name) = false := by
            simp [hk]
          rw [if_neg (by simp [hcond])]
          exact ih seen

end ExtractLemmas

section ReviewLemmas

theorem applyReview_eq_none (m : List (String × UserReviewState)) (r : Review)
    (h : r.userLogin = none) : applyReview m r = m := by
  unfold applyReview
  rw [h]

theorem applyReview_eq_some (m : List (String × UserReviewState)) (r : Review)
    (login : String) (h : r.userLogin = some login) :
    applyReview m r =
      (if login = "" then m
       else
        match objLookup m login with
        | none => objInsert m login ⟨r.state, r.submittedAt⟩
        | some current =>
          if current.submittedAt.getD 0 ≤ r.submittedAt.getD 0 then
            objInsert m login ⟨r.state, r.submittedAt⟩
          else m) := by
  unfold applyReview
  rw [h]

theorem nodupKeys_applyReview (m : List (String × UserReviewState)) (r : Review)
    (h : (m.map Prod.fst).Nodup) : ((applyReview m r).map Prod.fst).Nodup := by
  cases hl : r.userLogin with
  | none => rw [applyReview_eq_none m r hl]; exact h
  | some login =>
    rw [applyReview_eq_some m r login hl]
    by_cases he : login = ""
    · rw [if_pos he]; exact h
    · rw [if_neg he]
      cases ho : objLookup m login with
      | none => exact nodupKeys_objInsert m login _ h
      | some cur =>
        dsimp only
        by_cases hts : cur.submittedAt.getD 0 ≤ r.submittedAt.getD 0
        · rw [if_pos hts]; exact nodupKeys_objInsert m login _ h
        · rw [if_neg hts]; exact h

theorem nodupKeys_foldl_applyReview (reviews : List Review) :
    ∀ m : List (String × UserReviewState), (m.map Prod.fst).Nodup →
      ((reviews.foldl applyReview m).map Prod.fst).Nodup := by
  induction reviews with
  | nil => intro m h; exact h
  | cons r rs ih =>
    intro m h
    rw [List.foldl_cons]
    exact ih _ (nodupKeys_applyReview m r h)

theorem nodupKeys_reduceReviews (reviews : List Review) :
    ((reduceReviews reviews).map Prod.fst).Nodup :=
  nodupKeys_foldl_applyReview reviews [] List.nodup_nil

end ReviewLemmas

section EvalLemmas

theorem hasKey_eq_isSome_objLookup {α : Type} (m : List (String × α)) (k : String) :
    hasKey m k = (objLookup m k).isSome := by
  induction m with
  | nil => rfl
  | cons p m ih =>
    rw [hasKey_cons, objLookup_cons]
    by_cases hp : p.1 = k <;> simp [hp, ih]

theorem objLookup_map_dup_of_mem (seen : List String) (d : String) (h : d ∈ seen) :
    objLookup (seen.map dupPair) d = some d := by
  induction seen with
  | nil => cases h
  | cons x xs ih =>
    rw [List.map_cons, objLookup_cons]
    by_cases hx : x = d
    · subst hx; simp [dupPair]
    · have : (dupPair x).1 = x := rfl
      rw [this, if_neg hx]
      rcases List.mem_cons.mp h with rfl | h
      · exact absurd rfl hx
      · exact ih h

theorem fetchTeamMembers_cached (resolve : TeamOracle) (slug : String) (cache : TeamCache)
    (s : List String) (h : objLookup cache slug = some s) :
    fetchTeamMembers resolve slug cache = ⟨s, cache, false, false⟩ := by
  unfold fetchTeamMembers
  rw [h]

theorem fetchTeamMembers_miss_ok (resolve : TeamOracle) (slug : String) (cache : TeamCache)
    (ms : List (Option String)) (hc : objLookup cache slug = none)
    (hr : resolve slug = some ms) :
    fetchTeamMembers resolve slug cache =
      ⟨membersOfResponse ms, objInsert cache slug (membersOfResponse ms), true, false⟩ := by
  unfold fetchTeamMembers
  rw [hc, hr]

theorem fetchTeamMembers_miss_fail (resolve : TeamOracle) (slug : String) (cache : TeamCache)
    (hc : objLookup cache slug = none) (hr : resolve slug = none) :
    fetchTeamMembers resolve slug cache = ⟨[], objInsert cache slug [], true, true⟩ := by
  unfold fetchTeamMembers
  rw [hc, hr]

theorem fetchTeamMembers_spec (resolve : TeamOracle) (slug : String) (cache : TeamCache)
    (hinv : ∀ p ∈ cache, p.2 = resolvedMembers resolve p.1) :
    (fetchTeamMembers resolve slug cache).members = resolvedMembers resolve slug
    ∧ (∀ p ∈ (fetchTeamMembers resolve slug cache).cache, p.2 = resolvedMembers resolve p.1)
    ∧ (∀ s, hasKey cache s = true → hasKey (fetchTeamMembers resolve slug cache).cache s = true)
    ∧ hasKey (fetchTeamMembers resolve slug cache).cache slug = true
    ∧ ((fetchTeamMembers resolve slug cache).attempted = true → hasKey cache slug = false) := by
  cases hc : objLookup cache slug with
  | some s =>
    rw [fetchTeamMembers_cached resolve slug cache s hc]
    refine ⟨?_, hinv, fun s h => h, ?_, ?_⟩
    · exact hinv (slug, s) (objLookup_eq_some_mem cache slug s hc)
    · rw [hasKey_eq_isSome_objLookup, hc]; rfl
    · intro h; cases h
  | none =>
    have hkc : hasKey cache slug = false := by
      rw [hasKey_eq_isSome_objLookup, hc]; rfl
    have hmono : ∀ v : List String, ∀ s, hasKey cache s = true →
        hasKey (objInsert cache slug v) s = true := by
      intro v s h
      rw [hasKey_eq_isSome_objLookup, objLookup_objInsert]
      by_cases hs : s = slug
      · rw [if_pos hs]; rfl
      · rw [if_neg hs, ← hasKey_eq_isSome_objLookup]; exact h
    have hself : ∀ v : List String, hasKey (objInsert cache slug v) slug = true := by
      intro v
      rw [hasKey_eq_isSome_objLookup, objLookup_objInsert, if_pos rfl]
      rfl
    cases hr : resolve slug with
    | some ms =>
      rw [fetchTeamMembers_miss_ok resolve slug cache ms hc hr]
      refine ⟨?_, ?_, hmono _, hself _, fun _ => hkc⟩
      · unfold resolvedMembers; rw [hr]
      · intro p hp
        rcases mem_objInsert cache slug _ p hp with hpm | hpe
        · exact hinv p hpm
        · rw [hpe]; unfold resolvedMembers; rw [hr]
    | none =>
      rw [fetchTeamMembers_miss_fail resolve slug cache hc hr]
      refine ⟨?_, ?_, hmono _, hself _, fun _ => hkc⟩
      · unfold resolvedMembers; rw [hr]
      · intro p hp
        rcases mem_objInsert cache slug _ p hp with hpm | hpe
        · exact hinv p hpm
        · rw [hpe]; unfold resolvedMembers; rw [hr]

theorem evalStep_skip_or_record (config : LabelConfig) (extraction : DomainExtractionResult)
    (approved : List String) (resolve : TeamOracle)
    (evals : List EvaluatedDomain) (cache : TeamCache) (attempts : List String)
    (d : String) (teamSlug : String)
    (hslug : objLookup config.labels d = some teamSlug) (hne : teamSlug ≠ "")
    (hmap : objLookup extraction.domainLabelMap d = some d) (hd : d ≠ "") :
    evalStep config extraction approved resolve (evals, cache, attempts) d =
      (evals ++ [{ domainKey := d, teamSlug := teamSlug, labelName := d,
                   approvals := (approved.filter (fun u =>
                     (fetchTeamMembers resolve teamSlug cache).members.contains u)).length,
                   required := (objLookup config.overrides d).getD config.requiredApprovals,
                   satisfied := decide ((objLookup config.overrides d).getD config.requiredApprovals ≤
                     (approved.filter (fun u =>
                       (fetchTeamMembers resolve teamSlug cache).members.contains u)).length),
                   approvers := approved.filter (fun u =>
                     (fetchTeamMembers resolve teamSlug cache).members.contains u) }],
       (fetchTeamMembers resolve teamSlug cache).cache,
       if (fetchTeamMembers resolve teamSlug cache).attempted then attempts ++ [teamSlug]
       else attempts) := by
  unfold evalStep
  rw [hslug]
  dsimp only
  rw [if_neg hne, hmap]
  dsimp only
  rw [if_neg hd]

theorem fetchTeamMembers_keys (resolve : TeamOracle) (slug : String) (cache : TeamCache) :
    (∀ s, hasKey cache s = true → hasKey (fetchTeamMembers resolve slug cache).cache s = true)
    ∧ hasKey (fetchTeamMembers resolve slug cache).cache slug = true
    ∧ ((fetchTeamMembers resolve slug cache).attempted = true → hasKey cache slug = false)
    ∧ ((fetchTeamMembers resolve slug cache).attempted = false →
        (fetchTeamMembers resolve slug cache).cache = cache) := by
  cases hc : objLookup cache slug with
  | some s =>
    rw [fetchTeamMembers_cached resolve slug cache s hc]
    refine ⟨fun s h => h, ?_, ?_, fun _ => rfl⟩
    · rw [hasKey_eq_isSome_objLookup, hc]; rfl
    · intro h; cases h
  | none =>
    have hkc : hasKey cache slug = false := by
      rw [hasKey_eq_isSome_objLookup, hc]; rfl
    have hmono : ∀ v : List String, ∀ s, hasKey cache s = true →
        hasKey (objInsert cache slug v) s = true := by
      intro v s h
      rw [hasKey_eq_isSome_objLookup, objLookup_objInsert]
      by_cases hs : s = slug
      · rw [if_pos hs]; rfl
      · rw [if_neg hs, ← hasKey_eq_isSome_objLookup]; exact h
    have hself : ∀ v : List String, hasKey (objInsert cache slug v) slug = true := by
      intro v
      rw [hasKey_eq_isSome_objLookup, objLookup_objInsert, if_pos rfl]
      rfl
    cases hr : resolve slug with
    | some ms =>
      rw [fetchTeamMembers_miss_ok resolve slug cache ms hc hr]
      exact ⟨hmono _, hself _, fun _ => hkc, fun h => by cases h⟩
    | none =>
      rw [fetchTeamMembers_miss_fail resolve slug cache hc hr]
      exact ⟨hmono _, hself _, fun _ => hkc, fun h => by cases h⟩

theorem evalStep_cases (config : LabelConfig) (extraction : DomainExtractionResult)
    (approved : List String) (resolve : TeamOracle)
    (evals : List EvaluatedDomain) (cache : TeamCache) (attempts : List String) (d : String) :
    evalStep config extraction approved resolve (evals, cache, attempts) d
        = (evals, cache, attempts)
    ∨ ∃ teamSlug rec,
        evalStep config extraction approved resolve (evals, cache, attempts) d =
          (evals ++ [rec],
           (fetchTeamMembers resolve teamSlug cache).cache,
           if (fetchTeamMembers resolve teamSlug cache).attempted then attempts ++ [teamSlug]
           else attempts) := by
  cases hslug : objLookup config.labels d with
  | none =>
    left
    unfold evalStep
    rw [hslug]
  | some teamSlug =>
    by_cases hne : teamSlug = ""
    · left
      unfold evalStep
      rw [hslug]
      dsimp only
      rw [if_pos hne]
    · cases hmap : objLookup extraction.domainLabelMap d with
      | none =>
        left
        unfold evalStep
        rw [hslug]
        dsimp only
        rw [if_neg hne, hmap]
      | some resolvedLabelName =>
        by_cases hdn : resolvedLabelName = ""
        · left
          unfold evalStep
          rw [hslug]
          dsimp only
          rw [if_neg hne, hmap]
          dsimp only
          rw [if_pos hdn]
        · right
          refine ⟨teamSlug,
            { domainKey := d, teamSlug := teamSlug, labelName := resolvedLabelName,
              approvals := (approved.filter (fun u =>
                (fetchTeamMembers resolve teamSlug cache).members.contains u)).length,
              required := (objLookup config.overrides d).getD config.requiredApprovals,
              satisfied := decide ((objLookup config.overrides d).getD config.requiredApprovals ≤
                (approved.filter (fun u =>
                  (fetchTeamMembers resolve teamSlug cache).members.contains u)).length),
              approvers := approved.filter (fun u =>
                (fetchTeamMembers resolve teamSlug cache).members.contains u) }, ?_⟩
          unfold evalStep
          rw [hslug]
          dsimp only
          rw [if_neg hne, hmap]
          dsimp only
          rw [if_neg hdn]

theorem evalFold_attempts_inv (config : LabelConfig) (extraction : DomainExtractionResult)
    (approved : List String) (resolve : TeamOracle) (ds : List String) :
    ∀ (evals : List EvaluatedDomain) (cache : TeamCache) (attempts : List String),
      (∀ s ∈ attempts, hasKey cache s = true) → attempts.Nodup →
      (∀ s ∈ (ds.foldl (evalStep config extraction approved resolve)
          (evals, cache, attempts)).2.2,
        hasKey (ds.foldl (evalStep config extraction approved resolve)
          (evals, cache, attempts)).2.1 s = true)
      ∧ ((ds.foldl (evalStep config extraction approved resolve)
          (evals, cache, attempts)).2.2).Nodup := by
  induction ds with
  | nil => intro evals cache attempts h1 h2; exact ⟨h1, h2⟩
  | cons d ds ih =>
    intro evals cache attempts h1 h2
    rw [List.foldl_cons]
    rcases evalStep_cases config extraction approved resolve evals cache attempts d with
      heq | ⟨teamSlug, rec, heq⟩
    · rw [heq]; exact ih evals cache attempts h1 h2
    · rw [heq]
      obtain ⟨hmono, hself, hfresh, hnoop⟩ := fetchTeamMembers_keys resolve teamSlug cache
      cases hatt : (fetchTeamMembers resolve teamSlug cache).attempted with
      | false =>
        rw [if_neg Bool.false_ne_true]
        have hcc := hnoop hatt
        refine ih _ _ attempts ?_ h2
        intro s hs
        rw [hcc]
        exact h1 s hs
      | true =>
        rw [if_pos rfl]
        have hfr := hfresh hatt
        refine ih _ _ (attempts ++ [teamSlug]) ?_ ?_
        · intro s hs
          rcases List.mem_append.mp hs with hs | hs
          · exact hmono s (h1 s hs)
          · rcases List.mem_singleton.mp hs with rfl
            exact hself
        · rw [List.nodup_append]
          refine ⟨h2, List.nodup_singleton teamSlug, fun a ha hb => ?_⟩
          rcases List.mem_singleton.mp hb with rfl
          rw [h1 a ha] at hfr
          cases hfr

theorem evalFold_records (config : LabelConfig) (extraction : DomainExtractionResult)
    (approved : List String) (resolve : TeamOracle) (ds : List String) :
    ∀ (evals : List EvaluatedDomain) (cache : TeamCache) (attempts : List String),
      (∀ p ∈ cache, p.2 = resolvedMembers resolve p.1) →
      (∀ d ∈ ds, ∃ slug, objLookup config.labels d = some slug ∧ slug ≠ ""
        ∧ objLookup extraction.domainLabelMap d = some d ∧ d ≠ "") →
      (ds.foldl (evalStep config extraction approved resolve) (evals, cache, attempts)).1
        = evals ++ ds.map (expectedRecord config approved resolve) := by
  induction ds with
  | nil => intro evals cache attempts _ _; simp
  | cons d ds ih =>
    intro evals cache attempts hinv hds
    obtain ⟨slug, h1, h2, h3, h4⟩ := hds d (List.mem_cons_self d ds)
    rw [List.foldl_cons,
      evalStep_skip_or_record config extraction approved resolve evals cache attempts d slug
        h1 h2 h3 h4]
    obtain ⟨hmem, hcinv, _, _, _⟩ := fetchTeamMembers_spec resolve slug cache hinv
    rw [ih _ _ _ hcinv (fun x hx => hds x (List.mem_cons_of_mem d hx))]
    rw [List.map_cons, List.append_assoc]
    congr 1
    rw [List.singleton_append]
    congr 1
    unfold expectedRecord
    rw [hmem, h1]
    rfl

theorem filter_contains_toFinset (ap ms : List String) :
    (ap.filter (fun u => ms.contains u)).toFinset = ap.toFinset ∩ ms.toFinset := by
  ext a
  simp [List.mem_filter, List.elem_iff]

end EvalLemmas

/-- Claim C1: for every matched domain key the evaluation record computed
by the run has: required equal to the override requiredApprovals when an
override is defined for that key and otherwise the default; approvers
equal to the intersection of the approved-user set with the resolved team
member set of the mapped team; approvals equal to the size of approvers;
and satisfied iff approvals reach required.  The well-formedness
hypothesis (non-empty team slugs) holds for every validated
configuration. -/
theorem claim_C1_evaluation_records (config : LabelConfig) (prLabels : List (Option String))
    (approved : List String) (resolve : TeamOracle)
    (hwf : ∀ p ∈ config.labels, p.2 ≠ "") :
    ((evaluateDomains config (extractDomainLabels config prLabels) approved resolve).map
        (fun e => e.domainKey) = (extractDomainLabels config prLabels).domains)
    ∧ (∀ e ∈ evaluateDomains config (extractDomainLabels config prLabels) approved resolve,
        objLookup config.labels e.domainKey = some e.teamSlug
        ∧ e.required = (objLookup config.overrides e.domainKey).getD config.requiredApprovals
        ∧ e.approvers = approved.filter (fun u => (resolvedMembers resolve e.teamSlug).contains u)
        ∧ e.approvers.toFinset = approved.toFinset ∩ (resolvedMembers resolve e.teamSlug).toFinset
        ∧ e.approvals = e.approvers.length
        ∧ (e.satisfied = true ↔ e.required ≤ e.approvals)) := by
  have hKd : (extractDomainLabels config prLabels).domains =
      prLabels.foldl (matchStep config) [] := by
    rw [extractDomainLabels_eq]
  have hKm : (extractDomainLabels config prLabels).domainLabelMap =
      (prLabels.foldl (matchStep config) []).map dupPair := by
    rw [extractDomainLabels_eq]
  have hds : ∀ d ∈ (extractDomainLabels config prLabels).domains,
      ∃ slug, objLookup config.labels d = some slug ∧ slug ≠ ""
        ∧ objLookup (extractDomainLabels config prLabels).domainLabelMap d = some d
        ∧ d ≠ "" := by
    intro d hd
    rw [hKd] at hd
    rcases (mem_foldl_matchStep config prLabels [] d).mp hd with hfalse | ⟨hne, _, hkey⟩
    · cases hfalse
    · have hlk : (objLookup config.labels d).isSome := by
        rw [← hasKey_eq_isSome_objLookup]; exact hkey
      obtain ⟨slug, hslug⟩ := Option.isSome_iff_exists.mp hlk
      have hsne : slug ≠ "" := hwf (d, slug) (objLookup_eq_some_mem _ _ _ hslug)
      refine ⟨slug, hslug, hsne, ?_, hne⟩
      rw [hKm]
      exact objLookup_map_dup_of_mem _ d hd
  have hrec : evaluateDomains config (extractDomainLabels config prLabels) approved resolve
      = (extractDomainLabels config prLabels).domains.map
          (expectedRecord config approved resolve) := by
    unfold evaluateDomains evaluateDomainsAux
    rw [evalFold_records config (extractDomainLabels config prLabels) approved resolve
      (extractDomainLabels config prLabels).domains [] [] []
      (by intro p hp; cases hp) hds]
    exact List.nil_append _
  constructor
  · rw [hrec, List.map_map]
    have : ((fun e : EvaluatedDomain => e.domainKey) ∘ expectedRecord config approved resolve)
        = fun d => d := by
      funext d; rfl
    rw [this]
    exact List.map_id' _
  · intro e he
    rw [hrec] at he
    obtain ⟨d, hd, rfl⟩ := List.mem_map.mp he
    obtain ⟨slug, hslug, hsne, hmap, hne⟩ := hds d hd
    have hteam : (expectedRecord config approved resolve d).teamSlug =
        (objLookup config.labels d).getD "" := rfl
    refine ⟨?_, rfl, rfl, ?_, rfl, ?_⟩
    · show objLookup config.labels d = some ((objLookup config.labels d).getD "")
      rw [hslug]
      rfl
    · exact filter_contains_toFinset approved _
    · exact ⟨fun h => of_decide_eq_true h, fun h => decide_eq_true h⟩

/-- Witness instantiating C1 at a concrete configuration, PR label list,
approved set and membership oracle. -/
theorem claim_C1_evaluation_records_witness :
    (∀ p ∈ sampleConfig.labels, p.2 ≠ "")
    ∧ (((evaluateDomains sampleConfig
          (extractDomainLabels sampleConfig [some "frontend", some "billing"])
          ["alice", "bob"] sampleOracle).map (fun e => e.domainKey)
        = (extractDomainLabels sampleConfig [some "frontend", some "billing"]).domains)
      ∧ (∀ e ∈ evaluateDomains sampleConfig
            (extractDomainLabels sampleConfig [some "frontend", some "billing"])
            ["alice", "bob"] sampleOracle,
          objLookup sampleConfig.labels e.domainKey = some e.teamSlug
          ∧ e.required = (objLookup sampleConfig.overrides e.domainKey).getD
              sampleConfig.requiredApprovals
          ∧ e.approvers = ["alice", "bob"].filter (fun u =>
              (resolvedMembers sampleOracle e.teamSlug).contains u)
          ∧ e.approvers.toFinset = (["alice", "bob"] : List String).toFinset ∩
              (resolvedMembers sampleOracle e.teamSlug).toFinset
          ∧ e.approvals = e.approvers.length
          ∧ (e.satisfied = true ↔ e.required ≤ e.approvals))) :=
  ⟨by decide,
   claim_C1_evaluation_records sampleConfig [some "frontend", some "billing"]
     ["alice", "bob"] sampleOracle (by decide)⟩

/-- Claim C6: membership resolution returns the cached set when the slug
was already resolved in this run (no second attempt), the evaluation loop
attempts each slug at most once even when several domains map to one
team, and a failed first resolution does not abort the run: the team is
cached and returned as the empty member set, so its domains can never be
satisfied for a requirement of at least 1. -/
theorem claim_C6_membership_resolution (resolve : TeamOracle) (slug : String)
    (cache : TeamCache) (config : LabelConfig) (extraction : DomainExtractionResult)
    (approved : List String) :
    (∀ s : List String, objLookup cache slug = some s →
        fetchTeamMembers resolve slug cache = ⟨s, cache, false, false⟩)
    ∧ (objLookup cache slug = none → resolve slug = none →
        fetchTeamMembers resolve slug cache = ⟨[], objInsert cache slug [], true, true⟩)
    ∧ (objLookup cache slug = none → resolve slug = none →
        ∀ required : ℕ, 1 ≤ required →
          ¬ (required ≤ (approved.filter (fun u =>
              (fetchTeamMembers resolve slug cache).members.contains u)).length))
    ∧ (evaluateDomainsAux config extraction approved resolve).2.2.Nodup := by
  refine ⟨fun s h => fetchTeamMembers_cached resolve slug cache s h,
    fun hc hr => fetchTeamMembers_miss_fail resolve slug cache hc hr, ?_, ?_⟩
  · intro hc hr required hreq
    rw [fetchTeamMembers_miss_fail resolve slug cache hc hr]
    have hempty : (approved.filter (fun u => (([] : List String)).contains u)) = [] := by
      simp
    show ¬ (required ≤ (approved.filter (fun u => (([] : List String)).contains u)).length)
    rw [hempty]
    simp
    omega
  · exact (evalFold_attempts_inv config extraction approved resolve extraction.domains
      [] [] [] (by intro s hs; cases hs) List.nodup_nil).2

section RunLemmas

theorem runEval_draft (config : LabelConfig) (ctx : EventContext) (pr : PullRequest)
    (existing : List String) (reviews : List Review) (resolve : TeamOracle) (dryRun : Bool)
    (h : (config.ignoreDraft && pr.draft) = true) :
    runEval config ctx pr existing reviews resolve dryRun =
      { status := "skipped", requiredLabels := none, missingApprovals := none,
        evaluations := [], retractAction := maybeRetractOnUnlabeled config ctx dryRun,
        ensureAction := .nothing } := by
  unfold runEval
  simp [h]

theorem runEval_vacuous (config : LabelConfig) (ctx : EventContext) (pr : PullRequest)
    (existing : List String) (reviews : List Review) (resolve : TeamOracle) (dryRun : Bool)
    (h1 : (config.ignoreDraft && pr.draft) = false)
    (h2 : (extractDomainLabels config pr.labels).domains = []) :
    runEval config ctx pr existing reviews resolve dryRun =
      { status := "success", requiredLabels := some "", missingApprovals := some "",
        evaluations := [], retractAction := maybeRetractOnUnlabeled config ctx dryRun,
        ensureAction := ensureTeamReviewRequests config
          (extractDomainLabels config pr.labels).domains existing dryRun } := by
  unfold runEval
  simp [h1, h2]

theorem runEval_evaluated (config : LabelConfig) (ctx : EventContext) (pr : PullRequest)
    (existing : List String) (reviews : List Review) (resolve : TeamOracle) (dryRun : Bool)
    (h1 : (config.ignoreDraft && pr.draft) = false)
    (h2 : (extractDomainLabels config pr.labels).domains ≠ []) :
    runEval config ctx pr existing reviews resolve dryRun =
      { status :=
          if ¬ (((evaluateDomains config (extractDomainLabels config pr.labels)
              (approvedUsersOf reviews) resolve).filter (fun e => ¬ e.satisfied)).map
                (fun e => e.domainKey)).isEmpty
          then "failure" else "success",
        requiredLabels := some (String.intercalate ","
          ((evaluateDomains config (extractDomainLabels config pr.labels)
            (approvedUsersOf reviews) resolve).map (fun e => e.domainKey))),
        missingApprovals := some (String.intercalate ","
          (((evaluateDomains config (extractDomainLabels config pr.labels)
              (approvedUsersOf reviews) resolve).filter (fun e => ¬ e.satisfied)).map
                (fun e => e.domainKey))),
        evaluations := evaluateDomains config (extractDomainLabels config pr.labels)
          (approvedUsersOf reviews) resolve,
        retractAction := maybeRetractOnUnlabeled config ctx dryRun,
        ensureAction := ensureTeamReviewRequests config
          (extractDomainLabels config pr.labels).domains existing dryRun } := by
  unfold runEval
  have h2b : (extractDomainLabels config pr.labels).domains.isEmpty = false := by
    rw [Bool.eq_false_iff]
    intro hemp
    exact h2 (List.isEmpty_iff.mp hemp)
  simp [h1, h2b]

theorem maybeRetract_pos (config : LabelConfig) (ctx : EventContext) (dryRun : Bool)
    (name slug : String)
    (h1 : config.retractOnUnlabeled = true)
    (h2 : ctx.eventName = "pull_request" ∨ ctx.eventName = "pull_request_target")
    (h3 : ctx.action = some "unlabeled")
    (h4 : ctx.removedLabel = some name) (h5 : name ≠ "")
    (h6 : objLookup config.labels name = some slug) (h7 : slug ≠ "") :
    maybeRetractOnUnlabeled config ctx dryRun =
      if dryRun then .dryRunTrace slug else .remove slug := by
  have hk : hasKey config.labels name = true := by
    rw [hasKey_eq_isSome_objLookup, h6]; rfl
  unfold maybeRetractOnUnlabeled
  rw [if_neg (not_not_intro h1),
    if_neg (fun hc : ctx.eventName ≠ "pull_request" ∧ ctx.eventName ≠ "pull_request_target" =>
      h2.elim hc.1 hc.2),
    if_neg (not_not_intro h3), h4]
  dsimp only
  rw [if_neg h5, if_neg (not_not_intro hk), h6]
  dsimp only
  rw [if_neg h7]

theorem maybeRetract_ne_nothing (config : LabelConfig) (ctx : EventContext) (dryRun : Bool)
    (h : maybeRetractOnUnlabeled config ctx dryRun ≠ .nothing) :
    config.retractOnUnlabeled = true
    ∧ (ctx.eventName = "pull_request" ∨ ctx.eventName = "pull_request_target")
    ∧ ctx.action = some "unlabeled"
    ∧ ∃ name teamSlug, ctx.removedLabel = some name ∧ name ≠ ""
        ∧ hasKey config.labels name = true
        ∧ objLookup config.labels name = some teamSlug ∧ teamSlug ≠ ""
        ∧ maybeRetractOnUnlabeled config ctx dryRun =
            (if dryRun then .dryRunTrace teamSlug else .remove teamSlug) := by
  have h1 : config.retractOnUnlabeled = true := by
    by_contra h1
    apply h
    unfold maybeRetractOnUnlabeled
    rw [if_pos h1]
  have h2b : ctx.eventName = "pull_request" ∨ ctx.eventName = "pull_request_target" := by
    by_contra h2
    push_neg at h2
    apply h
    unfold maybeRetractOnUnlabeled
    rw [if_neg (not_not_intro h1), if_pos h2]
  have hevt : ¬ (ctx.eventName ≠ "pull_request" ∧ ctx.eventName ≠ "pull_request_target") :=
    fun hc => h2b.elim hc.1 hc.2
  have h3 : ctx.action = some "unlabeled" := by
    by_contra h3
    apply h
    unfold maybeRetractOnUnlabeled
    rw [if_neg (not_not_intro h1), if_neg hevt, if_pos h3]
  cases hrl : ctx.removedLabel with
  | none =>
    exfalso
    apply h
    unfold maybeRetractOnUnlabeled
    rw [if_neg (not_not_intro h1), if_neg hevt, if_neg (not_not_intro h3), hrl]
  | some name =>
    have h5 : name ≠ "" := by
      intro h5eq
      apply h
      unfold maybeRetractOnUnlabeled
      rw [if_neg (not_not_intro h1), if_neg hevt, if_neg (not_not_intro h3), hrl]
      dsimp only
      rw [if_pos h5eq]
    have hk : hasKey config.labels name = true := by
      by_contra hk
      apply h
      unfold maybeRetractOnUnlabeled
      rw [if_neg (not_not_intro h1), if_neg hevt, if_neg (not_not_intro h3), hrl]
      dsimp only
      rw [if_neg h5, if_pos hk]
    have hlk : (objLookup config.labels name).isSome := by
      rw [← hasKey_eq_isSome_objLookup]
      exact hk
    obtain ⟨slug, hslug⟩ := Option.isSome_iff_exists.mp hlk
    have h7 : slug ≠ "" := by
      intro h7eq
      apply h
      unfold maybeRetractOnUnlabeled
      rw [if_neg (not_not_intro h1), if_neg hevt, if_neg (not_not_intro h3), hrl]
      dsimp only
      rw [if_neg h5, if_neg (not_not_intro hk), hslug]
      dsimp only
      rw [if_pos h7eq]
    exact ⟨h1, h2b, h3, name, slug, rfl, h5, hk, hslug, h7,
      maybeRetract_pos config ctx dryRun name slug h1 h2b h3 hrl h5 hslug h7⟩

theorem runEval_evaluations_inputs (config : LabelConfig) (pr : PullRequest)
    (reviews : List Review) (resolve : TeamOracle) (dryRun : Bool)
    (ctx ctx2 : EventContext) (existing existing2 : List String) :
    (runEval config ctx pr existing reviews resolve dryRun).evaluations =
      (runEval config ctx2 pr existing2 reviews resolve dryRun).evaluations := by
  cases hb : (config.ignoreDraft && pr.draft) with
  | true =>
    rw [runEval_draft config ctx pr existing reviews resolve dryRun hb,
      runEval_draft config ctx2 pr existing2 reviews resolve dryRun hb]
  | false =>
    by_cases hdom : (extractDomainLabels config pr.labels).domains = []
    · rw [runEval_vacuous config ctx pr existing reviews resolve dryRun hb hdom,
        runEval_vacuous config ctx2 pr existing2 reviews resolve dryRun hb hdom]
    · rw [runEval_evaluated config ctx pr existing reviews resolve dryRun hb hdom,
        runEval_evaluated config ctx2 pr existing2 reviews resolve dryRun hb hdom]

end RunLemmas

section ComputeLemmas

theorem mem_computeTeams_aux (config : LabelConfig) (existing : List String)
    (ds : List String) :
    ∀ (acc : List String) (t : String),
      t ∈ ds.foldl (fun acc d =>
        match objLookup config.labels d with
        | none => acc
        | some teamSlug =>
          if teamSlug = "" then acc
          else if existing.contains teamSlug then acc
          else acc ++ [teamSlug]) acc
      ↔ t ∈ acc ∨ ((∃ d ∈ ds, objLookup config.labels d = some t) ∧ t ≠ ""
          ∧ existing.contains t = false) := by
  induction ds with
  | nil => intro acc t; simp
  | cons d ds ih =>
    intro acc t
    rw [List.foldl_cons, ih]
    cases hd : objLookup config.labels d with
    | none =>
      dsimp only
      constructor
      · rintro (h | ⟨⟨d', hd', hlk⟩, hne, hc⟩)
        · exact Or.inl h
        · exact Or.inr ⟨⟨d', List.mem_cons_of_mem _ hd', hlk⟩, hne, hc⟩
      · rintro (h | ⟨⟨d', hd', hlk⟩, hne, hc⟩)
        · exact Or.inl h
        · rcases List.mem_cons.mp hd' with rfl | hd'
          · rw [hd] at hlk; cases hlk
          · exact Or.inr ⟨⟨d', hd', hlk⟩, hne, hc⟩
    | some slug =>
      dsimp only
      by_cases hne : slug = ""
      · rw [if_pos hne]
        constructor
        · rintro (h | ⟨⟨d', hd', hlk⟩, hnet, hc⟩)
          · exact Or.inl h
          · exact Or.inr ⟨⟨d', List.mem_cons_of_mem _ hd', hlk⟩, hnet, hc⟩
        · rintro (h | ⟨⟨d', hd', hlk⟩, hnet, hc⟩)
          · exact Or.inl h
          · rcases List.mem_cons.mp hd' with rfl | hd'
            · rw [hd] at hlk
              injection hlk with hlk
              rw [← hlk] at hnet
              exact absurd hne hnet
            · exact Or.inr ⟨⟨d', hd', hlk⟩, hnet, hc⟩
      · rw [if_neg hne]
        by_cases hc : existing.contains slug = true
        · rw [if_pos hc]
          constructor
          · rintro (h | ⟨⟨d', hd', hlk⟩, hnet, hcf⟩)
            · exact Or.inl h
            · exact Or.inr ⟨⟨d', List.mem_cons_of_mem _ hd', hlk⟩, hnet, hcf⟩
          · rintro (h | ⟨⟨d', hd', hlk⟩, hnet, hcf⟩)
            · exact Or.inl h
            · rcases List.mem_cons.mp hd' with rfl | hd'
              · rw [hd] at hlk
                injection hlk with hlk
                rw [← hlk] at hcf
                rw [hc] at hcf
                cases hcf
              · exact Or.inr ⟨⟨d', hd', hlk⟩, hnet, hcf⟩
        · have hcf : existing.contains slug = false := by
            cases hcc : existing.contains slug
            · rfl
            · exact absurd hcc hc
          rw [if_neg hc]
          constructor
          · rintro (h | ⟨⟨d', hd', hlk⟩, hnet, hcf'⟩)
            · rcases List.mem_append.mp h with h | h
              · exact Or.inl h
              · rcases List.mem_singleton.mp h with rfl
                exact Or.inr ⟨⟨d, List.mem_cons_self d ds, hd⟩, hne, hcf⟩
            · exact Or.inr ⟨⟨d', List.mem_cons_of_mem _ hd', hlk⟩, hnet, hcf'⟩
          · rintro (h | ⟨⟨d', hd', hlk⟩, hnet, hcf'⟩)
            · exact Or.inl (List.mem_append.mpr (Or.inl h))
            · rcases List.mem_cons.mp hd' with rfl | hd'
              · rw [hd] at hlk
                injection hlk with hlk
                subst hlk
                exact Or.inl (List.mem_append.mpr (Or.inr (List.mem_singleton.mpr rfl)))
              · exact Or.inr ⟨⟨d', hd', hlk⟩, hnet, hcf'⟩

theorem mem_computeTeamsToRequest (config : LabelConfig) (ds existing : List String)
    (t : String) :
    t ∈ computeTeamsToRequest config ds existing ↔
      (∃ d ∈ ds, objLookup config.labels d = some t) ∧ t ≠ ""
        ∧ existing.contains t = false := by
  unfold computeTeamsToRequest
  rw [mem_computeTeams_aux config existing ds [] t]
  simp

theorem computeTeams_second_run (config : LabelConfig) (ds existing : List String) :
    computeTeamsToRequest config ds
      (existing ++ computeTeamsToRequest config ds existing) = [] := by
  rw [List.eq_nil_iff_forall_not_mem]
  intro t ht
  rw [mem_computeTeamsToRequest] at ht
  obtain ⟨⟨d, hd, hlk⟩, hne, hc⟩ := ht
  by_cases hx : t ∈ existing
  · have hmm : t ∈ existing ++ computeTeamsToRequest config ds existing :=
      List.mem_append.mpr (Or.inl hx)
    simp [hmm] at hc
  · have hx' : existing.contains t = false := by
      cases hcc : existing.contains t
      · rfl
      · exact absurd (List.elem_iff.mp hcc) hx
    have ht2 : t ∈ computeTeamsToRequest config ds existing :=
      (mem_computeTeamsToRequest config ds existing t).mpr ⟨⟨d, hd, hlk⟩, hne, hx'⟩
    have hmm : t ∈ existing ++ computeTeamsToRequest config ds existing :=
      List.mem_append.mpr (Or.inr ht2)
    simp [hmm] at hc

end ComputeLemmas

section ConfigLemmas

theorem validateConfig_ok_parts (fields : List (String × JValue)) (cfg : LabelConfig)
    (h : validateConfig (.obj fields) = .ok cfg) :
    ∃ labelFields, jLookup fields "labels" = some (.obj labelFields)
      ∧ validateLabels labelFields [] = .ok cfg.labels
      ∧ cfg.requiredApprovals = parseRequiredApprovals (jLookup fields "requiredApprovals") := by
  unfold validateConfig at h
  dsimp only at h
  cases hlv : jLookup fields "labels" with
  | none => rw [hlv] at h; exact Except.noConfusion h
  | some v =>
    rw [hlv] at h
    cases v with
    | null => exact Except.noConfusion h
    | bool b => exact Except.noConfusion h
    | num q => exact Except.noConfusion h
    | str s => exact Except.noConfusion h
    | obj labelFields =>
      dsimp only at h
      cases hvl : validateLabels labelFields [] with
      | error e => rw [hvl] at h; exact Except.noConfusion h
      | ok labels =>
        rw [hvl] at h
        dsimp only at h
        cases hvo : (match jLookup fields "overrides" with
                     | some (.obj oFields) => validateOverrides oFields []
                     | _ => .ok ([] : List (String × ℕ))) with
        | error e => rw [hvo] at h; exact Except.noConfusion h
        | ok overrides =>
          rw [hvo] at h
          dsimp only at h
          injection h with h
          rw [← h]
          exact ⟨labelFields, rfl, hvl, rfl⟩

theorem parseRequiredApprovals_ge_one (v : Option JValue) :
    1 ≤ parseRequiredApprovals v := by
  unfold parseRequiredApprovals
  cases v with
  | none => exact le_refl 1
  | some w =>
    cases w with
    | num q =>
      dsimp only
      by_cases hq : 1 ≤ q
      · rw [if_pos hq]
        have hfl : (1 : ℤ) ≤ Rat.floor q := Rat.le_floor.mpr (by exact_mod_cast hq)
        omega
      · rw [if_neg hq]
    | null => exact le_refl 1
    | bool b => exact le_refl 1
    | str s => exact le_refl 1
    | obj o => exact le_refl 1

theorem validateLabels_mem (fields : List (String × JValue)) :
    ∀ (acc m : List (String × String)), validateLabels fields acc = .ok m →
      ∀ p ∈ m, p ∈ acc ∨ ∃ k₀ s₀, (k₀, JValue.str s₀) ∈ fields
        ∧ p.1 = jsTrim k₀ ∧ p.2 = jsTrim s₀ := by
  induction fields with
  | nil =>
    intro acc m h p hp
    injection h with h
    rw [h]
    exact Or.inl hp
  | cons kv rest ih =>
    intro acc m h p hp
    obtain ⟨k, v⟩ := kv
    cases v with
    | null => exact Except.noConfusion h
    | bool b => exact Except.noConfusion h
    | num q => exact Except.noConfusion h
    | obj o => exact Except.noConfusion h
    | str s =>
      dsimp only [validateLabels] at h
      by_cases hs : jsTrim s = ""
      · rw [if_pos hs] at h
        exact Except.noConfusion h
      · rw [if_neg hs] at h
        rcases ih _ m h p hp with hacc | ⟨k₀, s₀, hmem, h1, h2⟩
        · rcases mem_objInsert acc (jsTrim k) (jsTrim s) p hacc with hacc | hpe
          · exact Or.inl hacc
          · refine Or.inr ⟨k, s, List.mem_cons_self _ _, ?_, ?_⟩
            · rw [hpe]
            · rw [hpe]
        · exact Or.inr ⟨k₀, s₀, List.mem_cons_of_mem _ hmem, h1, h2⟩

theorem dropWhile_head_not (p : Char → Bool) (l : List Char) :
    (l.dropWhile p).head?.all (fun c => !p c) = true := by
  induction l with
  | nil => rfl
  | cons c cs ih =>
    rw [List.dropWhile_cons]
    by_cases hc : p c = true
    · rw [if_pos hc]; exact ih
    · rw [if_neg hc]
      have hc' : p c = false := by
        cases hcc : p c
        · rfl
        · exact absurd hcc hc
      simp [hc']

theorem dropWhile_of_head_not (p : Char → Bool) (l : List Char)
    (h : l.head?.all (fun c => !p c) = true) : l.dropWhile p = l := by
  cases l with
  | nil => rfl
  | cons c cs =>
    simp only [List.head?_cons, Option.all_some] at h
    rw [List.dropWhile_cons, if_neg]
    simp only [Bool.not_eq_true'] at h
    simp [h]

theorem getLast?_dropWhile (p : Char → Bool) (l : List Char)
    (h : l.dropWhile p ≠ []) : (l.dropWhile p).getLast? = l.getLast? := by
  obtain ⟨t, ht⟩ := List.dropWhile_suffix p (l := l)
  conv_rhs => rw [← ht]
  exact (List.getLast?_append_of_ne_nil t h).symm

theorem trimChars_head_not (cs : List Char) :
    (trimChars cs).head?.all (fun c => !jsWhitespace c) = true := by
  unfold trimChars
  rw [List.head?_reverse]
  by_cases hbn : (cs.dropWhile jsWhitespace).reverse.dropWhile jsWhitespace = []
  · rw [hbn]; rfl
  · rw [getLast?_dropWhile _ _ hbn, List.getLast?_reverse]
    exact dropWhile_head_not _ _

theorem trimChars_idem (cs : List Char) : trimChars (trimChars cs) = trimChars cs := by
  have hb : ((cs.dropWhile jsWhitespace).reverse.dropWhile jsWhitespace).head?.all
      (fun c => !jsWhitespace c) = true := dropWhile_head_not _ _
  conv_lhs => rw [show trimChars (trimChars cs) =
    (((trimChars cs).dropWhile jsWhitespace).reverse.dropWhile jsWhitespace).reverse from rfl]
  rw [dropWhile_of_head_not _ _ (trimChars_head_not cs)]
  have hrev : (trimChars cs).reverse = (cs.dropWhile jsWhitespace).reverse.dropWhile
      jsWhitespace := by
    unfold trimChars
    rw [List.reverse_reverse]
  rw [hrev, dropWhile_of_head_not _ _ hb]
  rfl

theorem jsTrim_idem (s : String) : jsTrim (jsTrim s) = jsTrim s := by
  unfold jsTrim
  rw [show (String.mk (trimChars s.data)).data = trimChars s.data from rfl, trimChars_idem]

end ConfigLemmas


/-- Claim C4: the per-user reduction is a left fold in delivery order in
which a first event for a user is stored and a later event replaces the
stored one iff its timestamp is at least the stored one (an absent
timestamp read as epoch 0, so ties and missing timestamps resolve to the
later-delivered event); the approved-user set is exactly the users whose
final reduced state is APPROVED. -/
theorem claim_C4_review_reduction (reviews : List Review) :
    reduceReviews reviews = reviews.foldl applyReview []
    ∧ (∀ r : Review, reduceReviews (reviews ++ [r]) = applyReview (reduceReviews reviews) r)
    ∧ (∀ (m : List (String × UserReviewState)) (r : Review) (login : String),
        r.userLogin = some login → login ≠ "" →
        objLookup (applyReview m r) login =
          some (match objLookup m login with
                | none => ⟨r.state, r.submittedAt⟩
                | some cur =>
                  if cur.submittedAt.getD 0 ≤ r.submittedAt.getD 0 then
                    ⟨r.state, r.submittedAt⟩
                  else cur))
    ∧ (∀ (m : List (String × UserReviewState)) (r : Review) (u : String),
        (∀ login, r.userLogin = some login → login ≠ "" → u ≠ login) →
        objLookup (applyReview m r) u = objLookup m u)
    ∧ (∀ u : String, u ∈ approvedUsersOf reviews ↔
        ∃ st : UserReviewState, objLookup (reduceReviews reviews) u = some st
          ∧ st.state = "APPROVED") := by
  refine ⟨rfl, ?_, ?_, ?_, ?_⟩
  · intro r
    simp [reduceReviews, List.foldl_append]
  · intro m r login hl hne
    rw [applyReview_eq_some m r login hl, if_neg hne]
    cases ho : objLookup m login with
    | none =>
      dsimp only
      rw [objLookup_objInsert, if_pos rfl]
    | some cur =>
      dsimp only
      by_cases hts : cur.submittedAt.getD 0 ≤ r.submittedAt.getD 0
      · rw [if_pos hts, objLookup_objInsert, if_pos rfl, if_pos hts]
      · rw [if_neg hts, ho, if_neg hts]
  · intro m r u hu
    cases hl : r.userLogin with
    | none => rw [applyReview_eq_none m r hl]
    | some login =>
      rw [applyReview_eq_some m r login hl]
      by_cases he : login = ""
      · rw [if_pos he]
      · rw [if_neg he]
        have hul : u ≠ login := hu login hl he
        cases ho : objLookup m login with
        | none =>
          dsimp only
          rw [objLookup_objInsert, if_neg hul]
        | some cur =>
          dsimp only
          by_cases hts : cur.submittedAt.getD 0 ≤ r.submittedAt.getD 0
          · rw [if_pos hts, objLookup_objInsert, if_neg hul]
          · rw [if_neg hts]
  · intro u
    unfold approvedUsersOf
    rw [mem_map_filter_iff_objLookup _ _ _ (nodupKeys_reduceReviews reviews)]
    simp

/-- Claim C5: for every policy and PR label sequence, the label matcher
returns exactly the domain keys that equal (case-sensitive, untrimmed,
exact string equality) some PR label name, ordered by first occurrence in
the label sequence with each key appearing at most once; labels that are
not configured keys are ignored, configured keys with no matching label
are absent, and an empty result is a valid output with no error. -/
theorem claim_C5_matcher_exact (config : LabelConfig) (prLabels : List (Option String)) :
    (extractDomainLabels config prLabels).domains = matcherSpec config prLabels
    ∧ (∀ x : String, x ∈ (extractDomainLabels config prLabels).domains ↔
        (x ≠ "" ∧ some x ∈ prLabels ∧ hasKey config.labels x = true))
    ∧ (extractDomainLabels config prLabels).domains.Nodup := by
  have hd : (extractDomainLabels config prLabels).domains =
      prLabels.foldl (matchStep config) [] := by
    rw [extractDomainLabels_eq]
  refine ⟨?_, ?_, ?_⟩
  · rw [hd, foldl_matchStep_eq_firstOccur, matcherSpec]
    exact List.nil_append _
  · intro x
    rw [hd, mem_foldl_matchStep]
    simp
  · rw [hd]
    exact nodup_foldl_matchStep config prLabels [] List.nodup_nil


/-- Claim C7: a team review-request retraction is performed only when the
triggering event is a pull-request `unlabeled` event whose removed label
name is a configured domain key and `retractOnUnlabeled` is true (and not
dry-run); in every other case the retract operation does nothing; and
retraction never modifies the recorded approval state, so the evaluation
records do not depend on the retract-triggering context. -/
theorem claim_C7_retract_only_on_unlabeled (config : LabelConfig) (ctx ctx2 : EventContext)
    (dryRun : Bool) (pr : PullRequest) (existing : List String) (reviews : List Review)
    (resolve : TeamOracle) :
    (maybeRetractOnUnlabeled config ctx dryRun ≠ .nothing →
      config.retractOnUnlabeled = true
      ∧ (ctx.eventName = "pull_request" ∨ ctx.eventName = "pull_request_target")
      ∧ ctx.action = some "unlabeled"
      ∧ ∃ name teamSlug, ctx.removedLabel = some name ∧ name ≠ ""
          ∧ hasKey config.labels name = true
          ∧ objLookup config.labels name = some teamSlug ∧ teamSlug ≠ ""
          ∧ maybeRetractOnUnlabeled config ctx dryRun =
              (if dryRun then .dryRunTrace teamSlug else .remove teamSlug))
    ∧ (∀ t, maybeRetractOnUnlabeled config ctx dryRun = .remove t → dryRun = false)
    ∧ ((runEval config ctx pr existing reviews resolve dryRun).evaluations =
        (runEval config ctx2 pr existing reviews resolve dryRun).evaluations) := by
  refine ⟨maybeRetract_ne_nothing config ctx dryRun, ?_, ?_⟩
  · intro t hrem
    have hne : maybeRetractOnUnlabeled config ctx dryRun ≠ .nothing := by
      rw [hrem]
      intro hcon
      cases hcon
    obtain ⟨-, -, -, name, slug, -, -, -, -, -, heq⟩ :=
      maybeRetract_ne_nothing config ctx dryRun hne
    by_cases hdr : dryRun = true
    · exfalso
      rw [hdr] at heq hrem
      rw [heq, if_pos rfl] at hrem
      cases hrem
    · cases dryRun
      · rfl
      · exact absurd rfl hdr
  · exact runEval_evaluations_inputs config pr reviews resolve dryRun ctx ctx2
      existing existing

/-- Claim C8: the ensure operation requests exactly the mapped team slugs
of the matched domains minus the teams already in the requested-reviewer
set; a team already requested is never requested again; after the first
ensure is applied, a second run requests nothing; the evaluation records
are identical across runs on unchanged inputs (they do not depend on the
requested-team state); and under dry-run no request is issued. -/
theorem claim_C8_ensure_idempotent (config : LabelConfig) (ds existing existing2 : List String)
    (ctx : EventContext) (pr : PullRequest) (reviews : List Review) (resolve : TeamOracle)
    (dryRun : Bool) (hwf : ∀ p ∈ config.labels, p.2 ≠ "") :
    (∀ t, t ∈ computeTeamsToRequest config ds existing ↔
        ((∃ d ∈ ds, objLookup config.labels d = some t) ∧ t ∉ existing))
    ∧ (∀ t ∈ existing, t ∉ computeTeamsToRequest config ds existing)
    ∧ computeTeamsToRequest config ds
        (existing ++ computeTeamsToRequest config ds existing) = []
    ∧ ensureTeamReviewRequests config ds
        (existing ++ computeTeamsToRequest config ds existing) dryRun = .nothing
    ∧ (∀ ts, ensureTeamReviewRequests config ds existing true ≠ .request ts)
    ∧ ((runEval config ctx pr existing reviews resolve dryRun).evaluations =
        (runEval config ctx pr existing2 reviews resolve dryRun).evaluations) := by
  have hchar : ∀ t, t ∈ computeTeamsToRequest config ds existing ↔
      ((∃ d ∈ ds, objLookup config.labels d = some t) ∧ t ∉ existing) := by
    intro t
    rw [mem_computeTeamsToRequest]
    constructor
    · rintro ⟨hex, -, hc⟩
      refine ⟨hex, fun hmem => ?_⟩
      simp [hmem] at hc
    · rintro ⟨⟨d, hd, hlk⟩, hnm⟩
      refine ⟨⟨d, hd, hlk⟩, ?_, ?_⟩
      · exact hwf (d, t) (objLookup_eq_some_mem config.labels d t hlk)
      · cases hcc : existing.contains t
        · rfl
        · exact absurd (List.elem_iff.mp hcc) hnm
  refine ⟨hchar, ?_, computeTeams_second_run config ds existing, ?_, ?_, ?_⟩
  · intro t htm hcon
    exact ((hchar t).mp hcon).2 htm
  · unfold ensureTeamReviewRequests
    rw [computeTeams_second_run config ds existing]
    rfl
  · intro ts hcon
    unfold ensureTeamReviewRequests at hcon
    by_cases hemp : (computeTeamsToRequest config ds existing).isEmpty = true
    · rw [if_pos hemp] at hcon
      cases hcon
    · rw [if_neg hemp, if_pos rfl] at hcon
      cases hcon
  · exact runEval_evaluations_inputs config pr reviews resolve dryRun ctx ctx
      existing existing2

/-- Witness instantiating C8 at the sample policy with one team already
requested. -/
theorem claim_C8_ensure_idempotent_witness :
    (∀ p ∈ sampleConfig.labels, p.2 ≠ "")
    ∧ ((∀ t, t ∈ computeTeamsToRequest sampleConfig ["frontend", "billing"] ["web"] ↔
          ((∃ d ∈ ["frontend", "billing"],
              objLookup sampleConfig.labels d = some t) ∧ t ∉ ["web"]))
      ∧ (∀ t ∈ ["web"], t ∉ computeTeamsToRequest sampleConfig ["frontend", "billing"] ["web"])
      ∧ computeTeamsToRequest sampleConfig ["frontend", "billing"]
          (["web"] ++ computeTeamsToRequest sampleConfig ["frontend", "billing"] ["web"]) = []
      ∧ ensureTeamReviewRequests sampleConfig ["frontend", "billing"]
          (["web"] ++ computeTeamsToRequest sampleConfig ["frontend", "billing"] ["web"])
          false = .nothing
      ∧ (∀ ts, ensureTeamReviewRequests sampleConfig ["frontend", "billing"] ["web"] true
          ≠ .request ts)
      ∧ ((runEval sampleConfig sampleCtx samplePR ["web"] sampleReviews sampleOracle
            false).evaluations =
          (runEval sampleConfig sampleCtx samplePR [] sampleReviews sampleOracle
            false).evaluations)) :=
  ⟨by decide,
   claim_C8_ensure_idempotent sampleConfig ["frontend", "billing"] ["web"] [] sampleCtx
     samplePR sampleReviews sampleOracle false (by decide)⟩

/-- Claim C2: for every run that reaches evaluation, the overall status
is success iff every evaluation record is satisfied and failure
otherwise; with zero matched domain keys the status is success with empty
required-labels and missing-approvals outputs; and missing-approvals is
exactly the comma-joined unsatisfied domain keys. -/
theorem claim_C2_aggregate_status (config : LabelConfig) (ctx : EventContext)
    (pr : PullRequest) (existing : List String) (reviews : List Review)
    (resolve : TeamOracle) (dryRun : Bool)
    (h : ¬ (config.ignoreDraft = true ∧ pr.draft = true)) :
    ((runEval config ctx pr existing reviews resolve dryRun).status = "success"
      ↔ ∀ e ∈ (runEval config ctx pr existing reviews resolve dryRun).evaluations,
          e.satisfied = true)
    ∧ ((runEval config ctx pr existing reviews resolve dryRun).status = "success"
        ∨ (runEval config ctx pr existing reviews resolve dryRun).status = "failure")
    ∧ ((extractDomainLabels config pr.labels).domains = [] →
        (runEval config ctx pr existing reviews resolve dryRun).status = "success"
        ∧ (runEval config ctx pr existing reviews resolve dryRun).requiredLabels = some ""
        ∧ (runEval config ctx pr existing reviews resolve dryRun).missingApprovals = some ""
        ∧ (runEval config ctx pr existing reviews resolve dryRun).evaluations = [])
    ∧ ((runEval config ctx pr existing reviews resolve dryRun).missingApprovals =
        some (String.intercalate ","
          (((runEval config ctx pr existing reviews resolve dryRun).evaluations.filter
              (fun e => ¬ e.satisfied)).map (fun e => e.domainKey)))) := by
  have hb : (config.ignoreDraft && pr.draft) = false := by
    cases hcc : (config.ignoreDraft && pr.draft)
    · rfl
    · exact absurd (Bool.and_eq_true_iff.mp hcc) h
  by_cases hdom : (extractDomainLabels config pr.labels).domains = []
  · rw [runEval_vacuous config ctx pr existing reviews resolve dryRun hb hdom]
    refine ⟨?_, Or.inl rfl, fun _ => ⟨rfl, rfl, rfl, rfl⟩, rfl⟩
    simp
  · rw [runEval_evaluated config ctx pr existing reviews resolve dryRun hb hdom]
    dsimp only
    refine ⟨?_, ?_, fun hcon => absurd hcon hdom, rfl⟩
    · by_cases hm : (((evaluateDomains config (extractDomainLabels config pr.labels)
          (approvedUsersOf reviews) resolve).filter (fun e => ¬ e.satisfied)).map
            (fun e => e.domainKey)).isEmpty = true
      · rw [if_neg (not_not_intro hm)]
        simp only [List.isEmpty_iff, List.map_eq_nil_iff, List.filter_eq_nil_iff] at hm
        constructor
        · intro _ e he
          have := hm e he
          simpa using this
        · intro _
          rfl
      · rw [if_pos hm]
        constructor
        · intro hcon
          exact absurd hcon (by decide)
        · intro hall
          exfalso
          apply hm
          simp only [List.isEmpty_iff, List.map_eq_nil_iff, List.filter_eq_nil_iff]
          intro e he
          simp [hall e he]
    · by_cases hm : (((evaluateDomains config (extractDomainLabels config pr.labels)
          (approvedUsersOf reviews) resolve).filter (fun e => ¬ e.satisfied)).map
            (fun e => e.domainKey)).isEmpty = true
      · rw [if_neg (not_not_intro hm)]
        exact Or.inl rfl
      · rw [if_pos hm]
        exact Or.inr rfl

/-- Witness instantiating C2 at the sample policy on a non-draft PR. -/
theorem claim_C2_aggregate_status_witness :
    (¬ (sampleConfig.ignoreDraft = true ∧ samplePR.draft = true))
    ∧ (((runEval sampleConfig sampleCtx samplePR ["web"] sampleReviews sampleOracle
          false).status = "success"
        ↔ ∀ e ∈ (runEval sampleConfig sampleCtx samplePR ["web"] sampleReviews sampleOracle
            false).evaluations, e.satisfied = true)
      ∧ ((runEval sampleConfig sampleCtx samplePR ["web"] sampleReviews sampleOracle
            false).status = "success"
          ∨ (runEval sampleConfig sampleCtx samplePR ["web"] sampleReviews sampleOracle
            false).status = "failure")
      ∧ ((extractDomainLabels sampleConfig samplePR.labels).domains = [] →
          (runEval sampleConfig sampleCtx samplePR ["web"] sampleReviews sampleOracle
            false).status = "success"
          ∧ (runEval sampleConfig sampleCtx samplePR ["web"] sampleReviews sampleOracle
              false).requiredLabels = some ""
          ∧ (runEval sampleConfig sampleCtx samplePR ["web"] sampleReviews sampleOracle
              false).missingApprovals = some ""
          ∧ (runEval sampleConfig sampleCtx samplePR ["web"] sampleReviews sampleOracle
              false).evaluations = [])
      ∧ ((runEval sampleConfig sampleCtx samplePR ["web"] sampleReviews sampleOracle
            false).missingApprovals =
          some (String.intercalate ","
            (((runEval sampleConfig sampleCtx samplePR ["web"] sampleReviews sampleOracle
                false).evaluations.filter (fun e => ¬ e.satisfied)).map
                  (fun e => e.domainKey))))) :=
  ⟨by decide,
   claim_C2_aggregate_status sampleConfig sampleCtx samplePR ["web"] sampleReviews
     sampleOracle false (by decide)⟩

/-- Claim C10: the retract operation is invoked before the draft check,
so for an `unlabeled` event on a draft PR with `ignoreDraft` set the team
review-request removal (or its dry-run trace) is still performed even
though the run reports status skipped without evaluating approvals. -/
theorem claim_C10_retract_before_draft_gate (config : LabelConfig) (ctx : EventContext)
    (pr : PullRequest) (existing : List String) (reviews : List Review)
    (resolve : TeamOracle) (dryRun : Bool)
    (h1 : config.ignoreDraft = true) (h2 : pr.draft = true) :
    (runEval config ctx pr existing reviews resolve dryRun).status = "skipped"
    ∧ (runEval config ctx pr existing reviews resolve dryRun).requiredLabels = none
    ∧ (runEval config ctx pr existing reviews resolve dryRun).missingApprovals = none
    ∧ (runEval config ctx pr existing reviews resolve dryRun).evaluations = []
    ∧ (runEval config ctx pr existing reviews resolve dryRun).ensureAction = .nothing
    ∧ (runEval config ctx pr existing reviews resolve dryRun).retractAction =
        maybeRetractOnUnlabeled config ctx dryRun
    ∧ (∀ name slug, dryRun = false → config.retractOnUnlabeled = true →
        (ctx.eventName = "pull_request" ∨ ctx.eventName = "pull_request_target") →
        ctx.action = some "unlabeled" → ctx.removedLabel = some name → name ≠ "" →
        objLookup config.labels name = some slug → slug ≠ "" →
        (runEval config ctx pr existing reviews resolve dryRun).retractAction =
          .remove slug) := by
  have hb : (config.ignoreDraft && pr.draft) = true := by rw [h1, h2]; rfl
  rw [runEval_draft config ctx pr existing reviews resolve dryRun hb]
  refine ⟨rfl, rfl, rfl, rfl, rfl, rfl, ?_⟩
  intro name slug hdr hro hev hac hrm hn hlk hs
  show maybeRetractOnUnlabeled config ctx dryRun = .remove slug
  rw [maybeRetract_pos config ctx dryRun name slug hro hev hac hrm hn hlk hs, hdr]
  rfl

/-- Witness instantiating C10 at the sample policy on a draft PR with an
unlabeled event removing the billing label. -/
theorem claim_C10_retract_before_draft_gate_witness :
    sampleConfig.ignoreDraft = true ∧ sampleDraftPR.draft = true
    ∧ ((runEval sampleConfig sampleCtx sampleDraftPR ["web"] sampleReviews sampleOracle
          false).status = "skipped"
      ∧ (runEval sampleConfig sampleCtx sampleDraftPR ["web"] sampleReviews sampleOracle
          false).requiredLabels = none
      ∧ (runEval sampleConfig sampleCtx sampleDraftPR ["web"] sampleReviews sampleOracle
          false).missingApprovals = none
      ∧ (runEval sampleConfig sampleCtx sampleDraftPR ["web"] sampleReviews sampleOracle
          false).evaluations = []
      ∧ (runEval sampleConfig sampleCtx sampleDraftPR ["web"] sampleReviews sampleOracle
          false).ensureAction = .nothing
      ∧ (runEval sampleConfig sampleCtx sampleDraftPR ["web"] sampleReviews sampleOracle
          false).retractAction = maybeRetractOnUnlabeled sampleConfig sampleCtx false
      ∧ (∀ name slug, false = false → sampleConfig.retractOnUnlabeled = true →
          (sampleCtx.eventName = "pull_request" ∨
            sampleCtx.eventName = "pull_request_target") →
          sampleCtx.action = some "unlabeled" → sampleCtx.removedLabel = some name →
          name ≠ "" → objLookup sampleConfig.labels name = some slug → slug ≠ "" →
          (runEval sampleConfig sampleCtx sampleDraftPR ["web"] sampleReviews sampleOracle
            false).retractAction = .remove slug)) :=
  ⟨rfl, rfl,
   claim_C10_retract_before_draft_gate sampleConfig sampleCtx sampleDraftPR ["web"]
     sampleReviews sampleOracle false rfl rfl⟩


/-- Counterexample to claim C3 as stated: a top-level `requiredApprovals`
of 0 (below 1) and a non-numeric string value both pass validation with
the default 1 instead of raising a ConfigError. -/
theorem claim_C3_counterexample :
    (validateConfig (.obj [("labels", .obj [("a", .str "t")]), ("requiredApprovals", .num 0)])
      = .ok { labels := [("a", "t")], requiredApprovals := 1, overrides := [],
              ignoreDraft := true, retractOnUnlabeled := true })
    ∧ (validateConfig (.obj [("labels", .obj [("a", .str "t")]),
          ("requiredApprovals", .str "x")])
      = .ok { labels := [("a", "t")], requiredApprovals := 1, overrides := [],
              ignoreDraft := true, retractOnUnlabeled := true }) :=
  ⟨rfl, rfl⟩

/-- Claim C3 (amended): config validation of the top-level
`requiredApprovals` field behaves as: absent yields the default 1; a
number at least 1 is accepted and floored; and a non-numeric value or a
value below 1 is silently replaced by the default 1 — validation does not
fail because of this field, and the resulting value is always at least
1. -/
theorem claim_C3_amended_default (fields : List (String × JValue)) (cfg : LabelConfig)
    (h : validateConfig (.obj fields) = .ok cfg) :
    cfg.requiredApprovals = parseRequiredApprovals (jLookup fields "requiredApprovals")
    ∧ parseRequiredApprovals none = 1
    ∧ (∀ q : ℚ, 1 ≤ q → parseRequiredApprovals (some (.num q)) = (Rat.floor q).toNat)
    ∧ (∀ q : ℚ, q < 1 → parseRequiredApprovals (some (.num q)) = 1)
    ∧ (∀ v : JValue, (∀ q : ℚ, v ≠ .num q) → parseRequiredApprovals (some v) = 1)
    ∧ 1 ≤ cfg.requiredApprovals := by
  obtain ⟨-, -, -, hreq⟩ := validateConfig_ok_parts fields cfg h
  refine ⟨hreq, rfl, ?_, ?_, ?_, ?_⟩
  · intro q hq
    dsimp only [parseRequiredApprovals]
    rw [if_pos hq]
  · intro q hq
    dsimp only [parseRequiredApprovals]
    rw [if_neg (not_le.mpr hq)]
  · intro v hv
    cases v with
    | num q => exact absurd rfl (hv q)
    | null => rfl
    | bool b => rfl
    | str s => rfl
    | obj o => rfl
  · rw [hreq]
    exact parseRequiredApprovals_ge_one _

/-- Witness instantiating the amended C3 at a configuration whose
`requiredApprovals` is 0. -/
theorem claim_C3_amended_default_witness :
    validateConfig (.obj [("labels", .obj [("a", .str "t")]), ("requiredApprovals", .num 0)])
      = .ok { labels := [("a", "t")], requiredApprovals := 1, overrides := [],
              ignoreDraft := true, retractOnUnlabeled := true }
    ∧ (({ labels := [("a", "t")], requiredApprovals := 1, overrides := [],
          ignoreDraft := true, retractOnUnlabeled := true } : LabelConfig).requiredApprovals
        = parseRequiredApprovals
            (jLookup [("labels", .obj [("a", .str "t")]), ("requiredApprovals", .num 0)]
              "requiredApprovals")
      ∧ parseRequiredApprovals none = 1
      ∧ (∀ q : ℚ, 1 ≤ q → parseRequiredApprovals (some (.num q)) = (Rat.floor q).toNat)
      ∧ (∀ q : ℚ, q < 1 → parseRequiredApprovals (some (.num q)) = 1)
      ∧ (∀ v : JValue, (∀ q : ℚ, v ≠ .num q) → parseRequiredApprovals (some v) = 1)
      ∧ 1 ≤ ({ labels := [("a", "t")], requiredApprovals := 1, overrides := [],
               ignoreDraft := true, retractOnUnlabeled := true }
              : LabelConfig).requiredApprovals) :=
  ⟨rfl,
   claim_C3_amended_default
     [("labels", .obj [("a", .str "t")]), ("requiredApprovals", .num 0)]
     { labels := [("a", "t")], requiredApprovals := 1, overrides := [],
       ignoreDraft := true, retractOnUnlabeled := true } rfl⟩

/-- Claim C9: for every raw configuration accepted by validation the
policy domain keys (and team slugs) are the raw entries with surrounding
whitespace trimmed; two raw keys equal after trimming collapse to one
entry with the later value winning; and a PR label carrying surrounding
whitespace relative to a trimmed key can never match, although matching
itself performs no trimming. -/
theorem claim_C9_trimmed_keys (fields labelFields : List (String × JValue))
    (cfg : LabelConfig)
    (hl : jLookup fields "labels" = some (.obj labelFields))
    (h : validateConfig (.obj fields) = .ok cfg)
    (k₁ k₂ s₁ s₂ : String) (hk : jsTrim k₁ = jsTrim k₂)
    (hs₁ : jsTrim s₁ ≠ "") (hs₂ : jsTrim s₂ ≠ "") :
    (∀ p ∈ cfg.labels, ∃ k₀ s₀, (k₀, JValue.str s₀) ∈ labelFields
        ∧ p.1 = jsTrim k₀ ∧ p.2 = jsTrim s₀)
    ∧ (∀ p ∈ cfg.labels, jsTrim p.1 = p.1)
    ∧ validateLabels [(k₁, .str s₁), (k₂, .str s₂)] [] = .ok [(jsTrim k₁, jsTrim s₂)]
    ∧ (∀ (name : String) (prLabels : List (Option String)), jsTrim name ≠ name →
        name ∉ (extractDomainLabels cfg prLabels).domains) := by
  obtain ⟨lf2, hl2, hvl, -⟩ := validateConfig_ok_parts fields cfg h
  rw [hl] at hl2
  injection hl2 with hl2
  injection hl2 with hl2
  subst hl2
  have hmem : ∀ p ∈ cfg.labels, ∃ k₀ s₀, (k₀, JValue.str s₀) ∈ labelFields
      ∧ p.1 = jsTrim k₀ ∧ p.2 = jsTrim s₀ := by
    intro p hp
    rcases validateLabels_mem labelFields [] cfg.labels hvl p hp with hfalse | hex
    · cases hfalse
    · exact hex
  have htrim : ∀ p ∈ cfg.labels, jsTrim p.1 = p.1 := by
    intro p hp
    obtain ⟨k₀, s₀, -, h1, -⟩ := hmem p hp
    rw [h1, jsTrim_idem]
  refine ⟨hmem, htrim, ?_, ?_⟩
  · dsimp only [validateLabels]
    rw [if_neg hs₁, if_neg hs₂]
    have h1 : objInsert ([] : List (String × String)) (jsTrim k₁) (jsTrim s₁)
        = [(jsTrim k₁, jsTrim s₁)] := rfl
    rw [h1, ← hk]
    simp [objInsert, hasKey]
  · intro name prLabels hne hmemd
    have hKd : (extractDomainLabels cfg prLabels).domains =
        prLabels.foldl (matchStep cfg) [] := by
      rw [extractDomainLabels_eq]
    rw [hKd] at hmemd
    rcases (mem_foldl_matchStep cfg prLabels [] name).mp hmemd with hfalse | ⟨-, -, hkey⟩
    · cases hfalse
    · obtain ⟨v, hv⟩ := (hasKey_iff cfg.labels name).mp hkey
      exact hne (htrim (name, v) hv)

/-- Witness instantiating C9 at a raw configuration with two keys that
collapse after trimming and a trailing-space label probe. -/
theorem claim_C9_trimmed_keys_witness :
    jLookup [("labels", .obj [("billing ", .str " fin"), ("billing", .str "fin2")])]
        "labels"
      = some (.obj [("billing ", .str " fin"), ("billing", .str "fin2")])
    ∧ validateConfig (.obj [("labels",
        .obj [("billing ", .str " fin"), ("billing", .str "fin2")])])
      = .ok { labels := [("billing", "fin2")], requiredApprovals := 1, overrides := [],
              ignoreDraft := true, retractOnUnlabeled := true }
    ∧ jsTrim "billing " = jsTrim "billing"
    ∧ jsTrim " fin" ≠ "" ∧ jsTrim "fin2" ≠ ""
    ∧ ((∀ p ∈ ({ labels := [("billing", "fin2")], requiredApprovals := 1, overrides := [],
                 ignoreDraft := true, retractOnUnlabeled := true }
                : LabelConfig).labels,
          ∃ k₀ s₀, (k₀, JValue.str s₀) ∈
              [("billing ", JValue.str " fin"), ("billing", JValue.str "fin2")]
            ∧ p.1 = jsTrim k₀ ∧ p.2 = jsTrim s₀)
      ∧ (∀ p ∈ ({ labels := [("billing", "fin2")], requiredApprovals := 1, overrides := [],
                  ignoreDraft := true, retractOnUnlabeled := true }
                 : LabelConfig).labels,
          jsTrim p.1 = p.1)
      ∧ validateLabels [("billing ", .str " fin"), ("billing", .str "fin2")] []
          = .ok [(jsTrim "billing ", jsTrim "fin2")]
      ∧ (∀ (name : String) (prLabels : List (Option String)), jsTrim name ≠ name →
          name ∉ (extractDomainLabels
            { labels := [("billing", "fin2")], requiredApprovals := 1, overrides := [],
              ignoreDraft := true, retractOnUnlabeled := true } prLabels).domains)) :=
  ⟨rfl, rfl, rfl, by decide, by decide,
   claim_C9_trimmed_keys
     [("labels", .obj [("billing ", .str " fin"), ("billing", .str "fin2")])]
     [("billing ", .str " fin"), ("billing", .str "fin2")]
     { labels := [("billing", "fin2")], requiredApprovals := 1, overrides := [],
       ignoreDraft := true, retractOnUnlabeled := true }
     rfl rfl "billing " "billing" " fin" "fin2" rfl (by decide) (by decide)⟩

end LabelCheck
